import Mathlib

/-
Verification of the meteor build/bundling engine against its natural-language
specification.  The development shallowly embeds the claim-relevant parts of
src/tools/packages.js (namespace `Packages`: source scanning, slice
compilation, handler-map composition, import-map computation, the
slice-building api) and src/tools/bundler.js (namespace `Bundler`: load-order
determination, minification, the write/error-handling discipline of
exports.bundle).  JavaScript objects used as string-keyed dictionaries are
embedded as association lists with JS-assignment semantics (`setKey` replaces
in place, insertion order is preserved, lookup is by first match, `delete` is
`delKey`).  External collaborators that are not part of this repository
(crypto sha1, uglify/clean-css, linker.js, files.js enumeration/sort, node's
fs) are environment parameters of the embedding; the theorems quantify over
them wherever the claims do not depend on their internals.
-/


namespace Meteor

/-- Lookup in a JS-object model: first binding whose key matches. -/
def lookupKey {κ α : Type} [DecidableEq κ] : List (κ × α) → κ → Option α
  | [], _ => none
  | (k', v) :: rest, k => if k' = k then some v else lookupKey rest k

/-- JS property assignment `m[k] = v`: replace in place if the key exists
(keeping its position, as JS objects keep insertion order), otherwise append. -/
def setKey {κ α : Type} [DecidableEq κ] : List (κ × α) → κ → α → List (κ × α)
  | [], k, v => [(k, v)]
  | (k', v') :: rest, k, v =>
    if k' = k then (k', v) :: rest else (k', v') :: setKey rest k v

/-- JS `delete m[k]`. -/
def delKey {κ α : Type} [DecidableEq κ] (m : List (κ × α)) (k : κ) : List (κ × α) :=
  m.filter (fun kv => !(kv.1 == k))

/-- Underscore's `_.extend(target, source)`: assign every binding of the source. -/
def extendMap {κ α : Type} [DecidableEq κ] (m : List (κ × α)) (kvs : List (κ × α)) :
    List (κ × α) :=
  kvs.foldl (fun m kv => setKey m kv.1 kv.2) m

/-- Underscore's `_.union` / `_.uniq` on concatenation: keep first occurrences. -/
def dedupKeepFirst {α : Type} [DecidableEq α] (l : List α) : List α :=
  l.foldl (fun acc a => if acc.contains a then acc else acc ++ [a]) []

end Meteor

namespace Packages

open Meteor

/-- Structural split of a character list on a separator (the JS
`String.prototype.split` on a one-character separator). -/
def splitOnCharAux (c : Char) : List Char → List Char → List (List Char)
  | [], acc => [acc.reverse]
  | x :: xs, acc =>
    if x = c then acc.reverse :: splitOnCharAux c xs []
    else splitOnCharAux c xs (x :: acc)

def splitChar (c : Char) (s : String) : List String :=
  (splitOnCharAux c s.toList []).map (fun l => String.mk l)

/-- Model of node's `path.basename`: the last `/`-separated component. -/
def basenameOf (p : String) : String := (splitChar '/' p).getLastD p

/-- Model of node's `path.extname`: the final dot-suffix of the basename,
with a leading dot; empty when there is no dot or only a leading dot. -/
def extnameOf (p : String) : String :=
  let b := basenameOf p
  match splitChar '.' b with
  | [] => ""
  | [_] => ""
  | first :: rest =>
    if first = "" ∧ rest.length = 1 then "" else "." ++ rest.getLastD ""

/-- An argument of a JS function that may be `undefined`, a single value, or
an array (packages.js normalizes all three shapes). -/
inductive JsArg (α : Type) : Type
  | absent : JsArg α
  | one (a : α) : JsArg α
  | many (l : List α) : JsArg α

/-- Normalization `if (!(x instanceof Array)) x = x ? [x] : [];` used by
`add_files` and `exportSymbol` in src/tools/packages.js (an omitted or falsy
scalar becomes the empty list; the empty string is falsy in JS). -/
def normalizeArg : JsArg String → List String
  | .absent => []
  | .one s => if s = "" then [] else [s]
  | .many l => l

/-- Normalization `if (!(where instanceof Array)) where = where ? [where] :
["client", "server"];` used by `use` in src/tools/packages.js. -/
def normalizeWhereUse : JsArg String → List String
  | .absent => ["client", "server"]
  | .one s => if s = "" then ["client", "server"] else [s]
  | .many l => l

/-- One entry of a slice's `uses` list: `{spec, unordered}`. -/
structure UseEntry where
  spec : String
  unordered : Bool
deriving DecidableEq, Repr

/-- The per-role accumulator that the `use` / `add_files` / `exportSymbol`
capabilities of `initFromPackageDir` write into: `uses[role]`,
`sources[role]` and `forceExport[role]`, each keyed by arch. -/
structure ApiAcc where
  usesClient : List UseEntry
  usesServer : List UseEntry
  sourcesClient : List String
  sourcesServer : List String
  forceExportClient : List String
  forceExportServer : List String
deriving DecidableEq, Repr

/-- JS `uses[role][arch].push(e)`: pushing under an arch key other than
`client`/`server` dereferences `undefined` and throws. -/
def pushUse (acc : ApiAcc) (e : UseEntry) (arch : String) : Except String ApiAcc :=
  if arch = "client" then .ok { acc with usesClient := acc.usesClient ++ [e] }
  else if arch = "server" then .ok { acc with usesServer := acc.usesServer ++ [e] }
  else .error "TypeError: Cannot read property 'push' of undefined"

def pushSource (acc : ApiAcc) (p : String) (arch : String) : Except String ApiAcc :=
  if arch = "client" then .ok { acc with sourcesClient := acc.sourcesClient ++ [p] }
  else if arch = "server" then .ok { acc with sourcesServer := acc.sourcesServer ++ [p] }
  else .error "TypeError: Cannot read property 'push' of undefined"

def pushExport (acc : ApiAcc) (s : String) (arch : String) : Except String ApiAcc :=
  if arch = "client" then .ok { acc with forceExportClient := acc.forceExportClient ++ [s] }
  else if arch = "server" then .ok { acc with forceExportServer := acc.forceExportServer ++ [s] }
  else .error "TypeError: Cannot read property 'push' of undefined"

/-- Options object of the `use` capability (`options.role`,
`options.unordered`). -/
structure UseOptions where
  role : Option String
  unordered : Bool
deriving DecidableEq, Repr

/-- JS truthiness of `options.role && options.role !== "use"`. -/
def roleOverride (r : Option String) : Bool :=
  match r with
  | none => false
  | some s => s ≠ "" && s ≠ "use"

/-- The `use(names, where, options)` capability of src/tools/packages.js
lines 635-654: append `{spec, unordered}` edges per name and arch; `where`
defaults to both archs; a role override other than "use" throws. -/
def apiUse (acc : ApiAcc) (names : JsArg String) (whereArg : JsArg String)
    (options : UseOptions) : Except String ApiAcc :=
  let nameList := normalizeArg names
  let whereList := normalizeWhereUse whereArg
  nameList.foldlM (fun acc name =>
    whereList.foldlM (fun acc arch =>
      if roleOverride options.role then
        .error "Role override is no longer supported"
      else
        pushUse acc ⟨name, options.unordered⟩ arch) acc) acc

/-- The `add_files(paths, where)` capability of src/tools/packages.js lines
659-671: append each path to `sources[role][arch]` for each arch in `where`;
an omitted `where` normalizes to the empty arch list. -/
def apiAddFiles (acc : ApiAcc) (paths : JsArg String) (whereArg : JsArg String) :
    Except String ApiAcc :=
  let pathList := normalizeArg paths
  let whereList := normalizeArg whereArg
  pathList.foldlM (fun acc p =>
    whereList.foldlM (fun acc arch => pushSource acc p arch) acc) acc

/-- The `exportSymbol(symbols, where)` capability of src/tools/packages.js
lines 680-692: append each symbol to `forceExport[role][arch]` for each arch
in `where`; an omitted `where` normalizes to the empty arch list. -/
def apiExportSymbol (acc : ApiAcc) (symbols : JsArg String) (whereArg : JsArg String) :
    Except String ApiAcc :=
  let symbolList := normalizeArg symbols
  let whereList := normalizeArg whereArg
  symbolList.foldlM (fun acc s =>
    whereList.foldlM (fun acc arch => pushExport acc s arch) acc) acc

/-- One step of the "HUGE HACK" loop of `scanForSources` (src/tools/packages.js
lines 35-41): underscore's `_.each` iterates the array captured at call time,
so each original element is visited once; an `.html` element is pushed onto
`htmls` and all its occurrences are rejected from the current `fileList`. -/
def htmlHackStep (st : List String × List String) (filename : String) :
    List String × List String :=
  if extnameOf filename = ".html" then
    (st.1 ++ [filename], st.2.filter (fun f => !(f == filename)))
  else st

/-- The html-first reordering `fileList = htmls.concat(fileList)` of
`scanForSources`. -/
def htmlHack (l : List String) : List String :=
  let p := l.foldl htmlHackStep ([], l)
  p.1 ++ p.2

/-- JS `path.substr(0, p.length) === p` (string begins with `p`), written
over the character list so concrete instances evaluate. -/
def jsBeginsWith (p s : String) : Bool := p.toList.isPrefixOf s.toList

/-- JS `path[path.length - 1] === c`-style suffix test, written over the
character list so concrete instances evaluate. -/
def jsFinishesWith (s p : String) : Bool := p.toList.isSuffixOf s.toList

/-- Relative-path mapping at the end of `scanForSources`: strip the root
prefix, failing if the file resolves outside the root. -/
def relativizeAll (prefixDir : String) (l : List String) : Except String (List String) :=
  l.mapM (fun abs =>
    if jsBeginsWith prefixDir abs then .ok (abs.drop prefixDir.length)
    else .error "internal error: source file outside of parent?")

/-- Environment for `scanForSources`: `files.file_list_sync` and the
`files.sort` comparator live in files.js, which is not part of this
repository's sources; they are parameters of the embedding (the spec fixes
them to a deterministic lexicographic enumeration). -/
structure ScanEnv where
  fileListSync : String → List String → List String
  sortFiles : List String → List String

/-- `scanForSources(rootPath, extensions, ignoreFiles)` from
src/tools/packages.js lines 15-56: enumerate, reject ignored files, sort,
move html files first, and return root-relative paths. -/
def scanForSources (env : ScanEnv) (rootPath : String) (extensions : List String)
    (ignoreFiles : List (String → Bool)) : Except String (List String) :=
  let fileList := env.fileListSync rootPath extensions
  let fileList := fileList.filter (fun file => !(ignoreFiles.any (fun pat => pat file)))
  let fileList := env.sortFiles fileList
  let fileList := htmlHack fileList
  let prefixDir := if jsFinishesWith rootPath "/" then rootPath else rootPath ++ "/"
  relativizeAll prefixDir fileList

/-- An `options` record passed to the `add_resource` sink by an extension
handler.  `data` distinguishes a JS string, a Buffer, and any other value
(which `add_resource` rejects); `whereOpt` is the deprecated `where` key. -/
inductive JsData : Type
  | dstr (s : String)
  | dbuf (s : String)
  | dbad
deriving DecidableEq, Repr

structure AddResOpt where
  rtype : String
  path : Option String
  source_file : Option String
  data : Option JsData
  whereOpt : Option String
deriving DecidableEq, Repr

/-- An extension handler.  JS compares handlers by reference (`!==`), modeled
by the identity `hid`; the conflict message reads `handler.pkg.name`, modeled
by `pkgName`; invoking the handler produces a sequence of `add_resource`
calls as a function of the source and serve paths. -/
structure Handler where
  hid : Nat
  pkgName : Option String
  run : String → String → List AddResOpt

/-- The fields of a packages.js `Package` that slice compilation reads. -/
structure PackageP where
  name : Option String
  sourceRoot : String
  serveRoot : String
  extensions : List (String × Handler)

/-- A fragment passed to or returned by the linker: `{source, servePath}`. -/
structure PFile where
  source : String
  servePath : Option String
deriving DecidableEq, Repr

/-- A typed resource emitted by compilation. -/
structure Resource where
  rtype : String
  data : String
  servePath : Option String
deriving DecidableEq, Repr

/-- The packages.js `Slice`: identity, dependencies, sources, and the
compile-state fields that `_ensureCompiled` fills in exactly once. -/
structure PkgSlice where
  pkg : PackageP
  sliceName : String
  arch : String
  uses : List UseEntry
  sources : List String
  forceExport : List String
  depFiles : List (String × String)
  isCompiled : Bool
  exports : Option (List String)
  boundary : Option String
  prelinkFiles : Option (List PFile)
  resources : Option (List Resource)

/-- Errors thrown while computing a slice's handler map: the library cannot
resolve a base package name, or two distinct handlers claim one extension.
The conflict records the including package, the two providers, and the
extension, exactly the data interpolated into the thrown message. -/
inductive AHErr : Type
  | notAvailable (n : String)
  | conflict (inPkg oldPkg newPkg : Option String) (ext : String)
deriving DecidableEq, Repr

/-- JS `x || "your app"` on a possibly-null package name. -/
def orYourApp : Option String → String
  | some n => n
  | none => "your app"

/-- The message string of the corresponding thrown `Error`. -/
def AHErr.render : AHErr → String
  | .notAvailable n => "Package not available: " ++ n
  | .conflict a b c e =>
    "Conflict: two packages included in " ++ orYourApp a ++ ", " ++
      orYourApp b ++ " and " ++ orYourApp c ++
      ", are both trying to handle ." ++ e

/-- A library for name resolution, as packages.js `Library.get` behaves on a
name that is not a Package object: return the package or throw. -/
def libGet (lib : List (String × PackageP)) (n : String) : Except AHErr PackageP :=
  match lookupKey lib n with
  | some p => .ok p
  | none => .error (.notAvailable n)

/-- The base package name of a `uses` spec: `u.spec.split('.')[0]`. -/
def baseOf (spec : String) : String := (splitChar '.' spec).headD ""

/-- Merge one used package's `extensions` into the accumulated handler map
(the loop body of `Slice._allHandlers`, src/tools/packages.js lines 337-347):
a different handler already registered for the extension is a conflict;
otherwise the handler is (re)assigned. -/
def mergeExts (selfName otherName : Option String) :
    List (String × Handler) → List (String × Handler) →
    Except AHErr (List (String × Handler))
  | [], ret => .ok ret
  | (ext, handler) :: rest, ret =>
    match lookupKey ret ext with
    | some h0 =>
      if h0.hid ≠ handler.hid then
        .error (.conflict selfName h0.pkgName otherName ext)
      else mergeExts selfName otherName rest (setKey ret ext handler)
    | none => mergeExts selfName otherName rest (setKey ret ext handler)

def allHandlersAux (lib : List (String × PackageP)) (selfName : Option String) :
    List UseEntry → List (String × Handler) →
    Except AHErr (List (String × Handler))
  | [], ret => .ok ret
  | u :: rest, ret => do
    let otherPkg ← libGet lib (baseOf u.spec)
    let ret ← mergeExts selfName otherPkg.name otherPkg.extensions ret
    allHandlersAux lib selfName rest ret

/-- `Slice._allHandlers` (src/tools/packages.js lines 323-351): start from
the slice's own package's extensions, then fold in the extensions of every
immediate `uses` entry's base package, detecting conflicts. -/
def allHandlers (lib : List (String × PackageP)) (s : PkgSlice) :
    Except AHErr (List (String × Handler)) :=
  allHandlersAux lib s.pkg.name s.uses (extendMap [] s.pkg.extensions)

/-- `Slice._getSourceHandler`: the handler registered for an extension, or
none. -/
def getSourceHandler (lib : List (String × PackageP)) (s : PkgSlice)
    (extension : String) : Except AHErr (Option Handler) :=
  (allHandlers lib s).map (fun m => lookupKey m extension)

/-- Input record of `linker.prelink` as built at src/tools/packages.js lines
250-260. -/
structure PrelinkIn where
  inputFiles : List PFile
  useGlobalNamespace : Bool
  combinedServePath : Option String
  importStubServePath : String
  name : Option String
  forceExport : List String

/-- Output record of `linker.prelink`. -/
structure PrelinkOut where
  files : List PFile
  boundary : String
  exports : List String

/-- Input record of `linker.link` as built at src/tools/packages.js lines
301-306. -/
structure LinkIn where
  imports : List (String × Option String)
  useGlobalNamespace : Bool
  prelinkFiles : List PFile
  boundary : String

/-- Environment of slice compilation.  `readFile` is node's fs, `sha1` the
crypto hash, and `prelink`/`link` the two linker phases; linker.js is not
among this repository's sources, so both phases are opaque parameters. -/
structure CompileEnv where
  readFile : String → Option String
  sha1 : String → String
  prelink : PrelinkIn → PrelinkOut
  link : LinkIn → List PFile

/-- Accumulator of the source loop of `_ensureCompiled`: the non-js
resources, the js fragments headed for prelink, and the per-file hashes
recorded in `dependencyInfo.files`. -/
structure CompOut where
  resources : List Resource
  js : List PFile
  depFiles : List (String × String)
deriving Repr

/-- JS `options.source_file || options.path` (empty string is falsy). -/
def jsOrElse (a b : Option String) : Option String :=
  match a with
  | some s => if s = "" then b else some s
  | none => b

/-- The `add_resource` sink of `_ensureCompiled` (src/tools/packages.js lines
189-222): resolve the data (inline, or read from `source_file`/`path`),
reject a bad `data` type or a mismatched deprecated `where`, then route js
fragments to the prelink list and everything else to the resource list. -/
def addResource (env : CompileEnv) (arch : String) (acc : CompOut)
    (o : AddResOpt) : Except String CompOut := do
  let sourceFile := jsOrElse o.source_file o.path
  let data ← (match o.data with
    | some (.dstr s) => .ok s
    | some (.dbuf s) => .ok s
    | some .dbad => Except.error "Bad type for data"
    | none =>
      match sourceFile with
      | none => Except.error "Need either source_file or data"
      | some sf =>
        match env.readFile sf with
        | some c => .ok c
        | none => Except.error ("ENOENT, no such file or directory " ++ sf))
  let _ ← (match o.whereOpt with
    | some w =>
      if w ≠ "" ∧ w ≠ arch then
        Except.error ("'where' is deprecated here and if provided must be '" ++ arch ++ "'")
      else .ok ()
    | none => .ok ())
  if o.rtype = "js" then
    .ok { acc with js := acc.js ++ [⟨data, o.path⟩] }
  else
    .ok { acc with resources := acc.resources ++ [⟨o.rtype, data, o.path⟩] }

/-- The body of the source loop of `_ensureCompiled` (src/tools/packages.js
lines 224-247): resolve the handler, read and hash the file, then either
emit a static resource or run the handler's `add_resource` calls. -/
def compileOne (env : CompileEnv) (lib : List (String × PackageP)) (s : PkgSlice)
    (acc : CompOut) (relPath : String) : Except String CompOut := do
  let absPath := s.pkg.sourceRoot ++ "/" ++ relPath
  let ext := (extnameOf relPath).drop 1
  let handler ← (getSourceHandler lib s ext).mapError AHErr.render
  let contents ← (match env.readFile absPath with
    | some c => .ok c
    | none => Except.error ("ENOENT, no such file or directory " ++ absPath))
  let acc := { acc with depFiles := setKey acc.depFiles absPath (env.sha1 contents) }
  match handler with
  | none =>
    .ok { acc with resources :=
      acc.resources ++ [⟨"static", contents, some (s.pkg.serveRoot ++ "/" ++ relPath)⟩] }
  | some h =>
    (h.run (s.pkg.sourceRoot ++ "/" ++ relPath) (s.pkg.serveRoot ++ "/" ++ relPath)).foldlM
      (addResource env s.arch) acc

/-- `Slice._ensureCompiled` (src/tools/packages.js lines 162-267): a no-op on
a compiled slice; otherwise run every source through its handler, prelink the
js fragments, and store `prelinkFiles`, `boundary`, `exports`, `resources`,
marking the slice compiled. -/
def ensureCompiled (env : CompileEnv) (lib : List (String × PackageP))
    (s : PkgSlice) : Except String PkgSlice :=
  if s.isCompiled then .ok s
  else do
    let isApp := s.pkg.name.isNone
    let acc ← s.sources.foldlM (compileOne env lib s) ⟨[], [], s.depFiles⟩
    let results := env.prelink
      { inputFiles := acc.js
        useGlobalNamespace := isApp
        combinedServePath :=
          match s.pkg.name with
          | none => none
          | some n =>
            some ("/packages/" ++ n ++
              (if s.sliceName = "main" then "" else "." ++ s.sliceName) ++ ".js")
        importStubServePath := "/packages/global-imports.js"
        name := s.pkg.name
        forceExport := s.forceExport }
    .ok { s with
      prelinkFiles := some results.files
      boundary := some results.boundary
      exports := some results.exports
      resources := some acc.resources
      depFiles := acc.depFiles
      isCompiled := true }

/-- Iterated calls to `_ensureCompiled`. -/
def ensureCompiledN (env : CompileEnv) (lib : List (String × PackageP)) :
    Nat → PkgSlice → Except String PkgSlice
  | 0, s => .ok s
  | n + 1, s => do
    let s' ← ensureCompiled env lib s
    ensureCompiledN env lib n s'

/-- The view of an already-compiled used slice that the import-map loop of
`getResources` reads: its package's name and its export list. -/
structure CompiledView where
  pkgName : Option String
  exports : List String

/-- Record one used slice's exports into the import map (the inner loop at
src/tools/packages.js lines 292-294): `imports[symbol] = pkg.name`, a JS
assignment, so a later write to the same symbol replaces an earlier one. -/
def impOne (m : List (String × Option String)) (cv : CompiledView) :
    List (String × Option String) :=
  cv.exports.foldl (fun m sym => setKey m sym cv.pkgName) m

/-- Process one `uses` entry (src/tools/packages.js lines 288-297): an entry
marked `unordered` is skipped entirely; otherwise every slice returned by
`library.getSlices(u.spec, arch)` contributes its exports.  `resolve` stands
for `library.getSlices` composed with `_ensureCompiled`; `Library` in this
repository's sources does not define `getSlices`, so resolution is a
parameter. -/
def impUse (resolve : String → String → List CompiledView) (arch : String)
    (m : List (String × Option String)) (u : UseEntry) :
    List (String × Option String) :=
  if u.unordered then m
  else (resolve u.spec arch).foldl impOne m

/-- The import map of `Slice.getResources` (src/tools/packages.js lines
287-297), built by folding the ordered `uses` list over an initially empty
object. -/
def computeImports (resolve : String → String → List CompiledView)
    (arch : String) (uses : List UseEntry) : List (String × Option String) :=
  uses.foldl (impUse resolve arch) []

/-- `Slice.getResources` (src/tools/packages.js lines 279-318): compile,
compute the import map, run the final link phase, and return the static
resources followed by the linked js resources (`_.union` keeps first
occurrences and preserves order). -/
def getResources (env : CompileEnv) (lib : List (String × PackageP))
    (resolve : String → String → List CompiledView) (s : PkgSlice) :
    Except String (List Resource) := do
  let s' ← ensureCompiled env lib s
  let imports := computeImports resolve s'.arch s'.uses
  let isApp := s'.pkg.name.isNone
  let files := env.link
    { imports := imports
      useGlobalNamespace := isApp
      prelinkFiles := s'.prelinkFiles.getD []
      boundary := s'.boundary.getD "" }
  let jsResources := files.map (fun f => Resource.mk "js" f.source f.servePath)
  .ok (dedupKeepFirst ((s'.resources.getD []) ++ jsResources))

/-- Reading `pkg.dependencyFileShas` in src/tools/bundler.js line 647: the
`Package` defined by src/tools/packages.js declares no such property (the
per-source hashes live in each Slice's `dependencyInfo.files`), so the read
yields `undefined`. -/
def dependencyFileShas (_p : PackageP) : Option (List (String × String)) := none

/-- `_.extend(target, undefined)` is a no-op; with an object it assigns every
binding. -/
def extendMaybe (m : List (String × String)) :
    Option (List (String × String)) → List (String × String)
  | none => m
  | some kvs => extendMap m kvs

/-- The source-file dependency merge of `Bundle.writeToDirectory`
(src/tools/bundler.js lines 644-648): extend `dependencyInfo.files` with
`slice.pkg.dependencyFileShas` for every slice in the bundle. -/
def mergeDependencyFiles (files : List (String × String))
    (pkgs : List PackageP) : List (String × String) :=
  pkgs.foldl (fun m p => extendMaybe m (dependencyFileShas p)) files

end Packages

namespace Bundler

open Meteor

/-- Slice roles in src/tools/bundler.js: `use` or `test`. -/
inductive Role : Type
  | use
  | test
deriving DecidableEq, Repr

/-- Target environments: `client` or `server`. -/
inductive Arch : Type
  | client
  | server
deriving DecidableEq, Repr

/-- The fields of a Package that `Bundle.determineLoadOrder` reads:
a process-unique `id`, a possibly-null `name`, the `uses[role][where]`
lists of used package names, and the `unordered` map of names whose edges
carry no load-order constraint. -/
structure Pkg where
  id : Nat
  name : Option String
  usesUseClient : List String
  usesUseServer : List String
  usesTestClient : List String
  usesTestServer : List String
  unordered : List String
deriving DecidableEq, Repr

def Pkg.usesAt (p : Pkg) : Role → Arch → List String
  | .use, .client => p.usesUseClient
  | .use, .server => p.usesUseServer
  | .test, .client => p.usesTestClient
  | .test, .server => p.usesTestServer

/-- JS truthiness of `pkg.unordered[name]`. -/
def Pkg.isUnordered (p : Pkg) (n : String) : Bool := p.unordered.contains n

/-- The bundler's `Slice`: a (package, role, where) triple. -/
structure BSlice where
  pkg : Pkg
  role : Role
  arch : Arch
deriving DecidableEq, Repr

/-- The id string `role + ":" + where + ":" + pkg.id`, as a key triple. -/
def skey (s : BSlice) : Role × Arch × Nat := (s.role, s.arch, s.pkg.id)

/-- JS string coercion of a possibly-null package name (concatenating `null`
prints "null"). -/
def jsName : Option String → String
  | some n => n
  | none => "null"

/-- How the bundle() operation can abort: a thrown exception (caught by the
try/catch of `exports.bundle`), a `console.error` + `process.exit(1)`
(which bypasses the catch), or exhaustion of the embedding's recursion
fuel (not a behavior of the program). -/
inductive BErr : Type
  | thrown (msg : String)
  | exited (msg : String)
  | fuel
deriving DecidableEq, Repr

/-- A reference to a package: a name to resolve, or a Package object
(`Library.get` maps objects to themselves). -/
inductive PkgRef : Type
  | byName (n : String)
  | byObj (p : Pkg)
deriving DecidableEq, Repr

/-- `Bundle.getPackage` backed by `Library.get` from the library half of
src/tools/packages.js: object references resolve to themselves; unknown
names throw `Package not available`. -/
def getPackage (lib : List (String × Pkg)) : PkgRef → Except BErr Pkg
  | .byObj p => .ok p
  | .byName n =>
    match lookupKey lib n with
    | some p => .ok p
    | none => .error (.thrown ("Package not available: " ++ n))

/-- State of the first phase of `determineLoadOrder`: the `sliceIndex`
(role, where, package id → slice) and `slicesUnordered` in insertion
order. -/
structure Phase1St where
  index : List ((Role × Arch × Nat) × BSlice)
  order : List BSlice
deriving Repr

/-- The `_.each` over `pkg.uses[role][where]` inside `add` (src/tools/
bundler.js lines 153-156), parameterized by the recursive entry point so the
mutual recursion is structural in the fuel. -/
def addSliceListF (lib : List (String × Pkg))
    (addS : Pkg → Role → Arch → Phase1St → Except BErr Phase1St) :
    List String → Arch → Phase1St → Except BErr Phase1St
  | [], _, st => .ok st
  | n :: rest, arch, st => do
    let usedPkg ← getPackage lib (.byName n)
    let st ← addS usedPkg .use arch st
    addSliceListF lib addS rest arch st

/-- The recursive `add` of `determineLoadOrder` (src/tools/bundler.js lines
147-157): ensure a slice exists for the package, then recurse over its
`uses` in role `use`, same where. -/
def addSlice (lib : List (String × Pkg)) :
    Nat → Pkg → Role → Arch → Phase1St → Except BErr Phase1St
  | 0, _, _, _, _ => .error .fuel
  | fuel + 1, pkg, role, arch, st =>
    match lookupKey st.index (role, arch, pkg.id) with
    | some _ => .ok st
    | none =>
      let slice : BSlice := ⟨pkg, role, arch⟩
      let st : Phase1St :=
        ⟨setKey st.index (role, arch, pkg.id) slice, st.order ++ [slice]⟩
      addSliceListF lib (addSlice lib fuel) (pkg.usesAt role arch) arch st

/-- State of the emission phase: the output `slices`, the `done` and
`onStack` id sets, and the `remaining` map in insertion order. -/
structure LoadSt where
  slices : List BSlice
  done : List (Role × Arch × Nat)
  onStack : List (Role × Arch × Nat)
  remaining : List BSlice
deriving DecidableEq, Repr

/-- The `_.each` over `slice.pkg.uses[role][where]` inside `load`
(src/tools/bundler.js lines 200-215), parameterized by the recursive entry
point (`load` at the remaining fuel) so the mutual recursion is structural:
skip an edge marked unordered (for a named package), resolve the used
package, check for a cycle on the recursion stack (`console.error` +
`process.exit(1)` when found), and recurse. -/
def loadUsesF (lib : List (String × Pkg))
    (ix : List ((Role × Arch × Nat) × BSlice))
    (loadS : BSlice → LoadSt → Except BErr LoadSt) (slice : BSlice) :
    List String → LoadSt → Except BErr LoadSt
  | [], st => .ok st
  | n :: rest, st =>
    if slice.pkg.name.isSome && slice.pkg.isUnordered n then
      loadUsesF lib ix loadS slice rest st
    else do
      let usedPkg ← getPackage lib (.byName n)
      match lookupKey ix (Role.use, slice.arch, usedPkg.id) with
      | none => .error (.thrown "Missing slice?")
      | some usedSlice =>
        if st.onStack.contains (skey usedSlice) then
          .error (.exited ("fatal: circular dependency between packages " ++
            jsName slice.pkg.name ++ " and " ++ jsName usedSlice.pkg.name))
        else do
          let st' ← loadS usedSlice
            { st with onStack := st.onStack ++ [skey usedSlice] }
          loadUsesF lib ix loadS slice rest
            { st' with onStack := st'.onStack.filter (fun k => !(k == skey usedSlice)) }

/-- The recursive `load` of `determineLoadOrder` (src/tools/bundler.js lines
196-219): emit all ordered dependencies, then the slice itself. -/
def loadSlice (lib : List (String × Pkg))
    (ix : List ((Role × Arch × Nat) × BSlice)) :
    Nat → BSlice → LoadSt → Except BErr LoadSt
  | 0, _, _ => .error .fuel
  | fuel + 1, slice, st =>
    if st.done.contains (skey slice) then .ok st
    else do
      let st ← loadUsesF lib ix (loadSlice lib ix fuel) slice
        (slice.pkg.usesAt slice.role slice.arch) st
      .ok ⟨st.slices ++ [slice], st.done ++ [skey slice], st.onStack,
           st.remaining.filter (fun s => !(skey s == skey slice))⟩

/-- The `while (true)` loop of `determineLoadOrder`: take the first
remaining slice (JS for-in visits string keys in insertion order) and load
it, until none remain. -/
def loadLoop (lib : List (String × Pkg))
    (ix : List ((Role × Arch × Nat) × BSlice)) :
    Nat → LoadSt → Except BErr LoadSt
  | 0, _ => .error .fuel
  | fuel + 1, st =>
    match st.remaining with
    | [] => .ok st
    | first :: _ => do
      let st' ← loadSlice lib ix fuel first st
      loadLoop lib ix fuel st'

/-- The roots argument of `determineLoadOrder`: role → where → package
list. -/
abbrev Contents := List (Role × Arch × List PkgRef)

/-- The root loop of `determineLoadOrder` (src/tools/bundler.js lines
160-167). -/
def addRoots (lib : List (String × Pkg)) (fuel : Nat) (contents : Contents) :
    Except BErr Phase1St :=
  contents.foldlM (fun st entry =>
    entry.2.2.foldlM (fun st ref => do
      let pkg ← getPackage lib ref
      addSlice lib fuel pkg entry.1 entry.2.1 st) st) ⟨[], []⟩

/-- `Bundle.determineLoadOrder` (src/tools/bundler.js lines 137-222),
returning the final state whose `slices` field is the load order. -/
def determineLoadOrder (lib : List (String × Pkg)) (contents : Contents)
    (fuel : Nat) : Except BErr LoadSt := do
  let p1 ← addRoots lib fuel contents
  loadLoop lib p1.index fuel ⟨[], [], [], p1.order⟩

/-- A manifest entry; `minify` fills every field, the `app.html` entry only
`path`, `where` and `hash`. -/
structure ManifestEntry where
  mpath : String
  mwhere : String
  mtype : Option String
  cacheable : Option Bool
  url : Option String
  size : Option Nat
  hash : String
deriving DecidableEq, Repr

/-- The staging state of a `Bundle` that `minify` and `writeToDirectory`
operate on: the per-arch js load orders, the css list, and the three staged
file maps, plus the manifest. -/
structure BundleFiles where
  jsClient : List String
  jsServer : List String
  css : List String
  filesClient : List (String × String)
  filesClientCacheable : List (String × String)
  filesServer : List (String × String)
  manifest : List ManifestEntry
deriving DecidableEq, Repr

/-- The `addFile` helper of `Bundle.minify` (src/tools/bundler.js lines
343-357): store the minified code under `/<sha1>.<type>` in the cacheable
map and push a cacheable manifest entry whose url is that name. -/
def minifyAddFile (sha1 : String → String) (ty : String) (finalCode : String)
    (b : BundleFiles) : BundleFiles :=
  let contents := finalCode
  let hash := sha1 contents
  let name := "/" ++ hash ++ "." ++ ty
  { b with
    filesClientCacheable := setKey b.filesClientCacheable name contents
    manifest := b.manifest ++ [{
      mpath := "static_cacheable" ++ name
      mwhere := "client"
      mtype := some ty
      cacheable := some true
      url := some name
      size := some contents.length
      hash := hash }] }

/-- The js collection loop of `minify` (src/tools/bundler.js lines 360-365):
read each staged client js file into `codeParts` and delete it from the
staged map; a missing file is a thrown TypeError. -/
def minifyCollectJs : List String → BundleFiles →
    Except BErr (List String × BundleFiles)
  | [], b => .ok ([], b)
  | p :: rest, b =>
    match lookupKey b.filesClient p with
    | none => .error (.thrown "TypeError: Cannot read property 'toString' of undefined")
    | some content => do
      let (parts, b') ← minifyCollectJs rest
        { b with filesClient := delKey b.filesClient p }
      .ok (content :: parts, b')

/-- The css concatenation loop of `minify` (src/tools/bundler.js lines
375-381): `cssConcat = cssConcat + "\n" + data`, deleting each input. -/
def minifyCollectCss : List String → String → BundleFiles →
    Except BErr (String × BundleFiles)
  | [], acc, b => .ok (acc, b)
  | p :: rest, acc, b =>
    match lookupKey b.filesClient p with
    | none => .error (.thrown "TypeError: Cannot read property 'toString' of undefined")
    | some content =>
      minifyCollectCss rest (acc ++ "\n" ++ content)
        { b with filesClient := delKey b.filesClient p }

/-- `Bundle.minify` (src/tools/bundler.js lines 340-387).  `sha1` is the
crypto hash; `minifyJs` and `minifyCss` are the opaque uglify and clean-css
transformers. -/
def minify (sha1 minifyJs minifyCss : String → String) (b : BundleFiles) :
    Except BErr BundleFiles := do
  let (codeParts, b) ← minifyCollectJs b.jsClient b
  let b := { b with jsClient := [] }
  let combinedCode := String.intercalate "\n;\n" codeParts
  let finalCode := minifyJs combinedCode
  let b := minifyAddFile sha1 "js" finalCode b
  let (cssConcat, b) ← minifyCollectCss b.css "" b
  let b := { b with css := [] }
  let finalCss := minifyCss cssConcat
  .ok (minifyAddFile sha1 "css" finalCss b)

/-- An abstract filesystem for the write/error discipline: the set of
top-level artifact paths that exist (the output path and the temporary
build directory); contents written inside the build directory stay within
its entry. -/
abbrev FS := List String

def fsRemove (fs : FS) (p : String) : FS := fs.filter (fun q => !(q == p))

def fsAdd (fs : FS) (p : String) : FS :=
  if fs.contains p then fs else fs ++ [p]

/-- `foo/bar => foo/.build.bar` (src/tools/bundler.js lines 460-461); output
paths are modeled as bare basenames. -/
def buildPathOf (outputPath : String) : String := ".build." ++ outputPath

/-- The `addClientFileToManifest` closure of `writeToDirectory`
(src/tools/bundler.js lines 500-517). -/
def addClientFileToManifest (sha1 : String → String) (b : BundleFiles)
    (filepath : String) (contents : String) (ty : String) (cacheable : Bool)
    (url : Option String) (hash : Option String) : BundleFiles :=
  let normalized := if Packages.jsBeginsWith "/" filepath then filepath.drop 1 else filepath
  { b with manifest := b.manifest ++ [{
      mpath := (if cacheable then "static_cacheable" else "static") ++ "/" ++ normalized
      mwhere := "client"
      mtype := some ty
      cacheable := some cacheable
      url := some (url.getD ("/" ++ normalized))
      size := some contents.length
      hash := hash.getD (sha1 contents) }] }

/-- The `processClientCode` closure of `writeToDirectory` (src/tools/bundler.js
lines 546-565): a staged client file gains a cache-busting `?<sha1>` url and
moves to the cacheable map; an already-cacheable file keeps its hashed name;
an unknown path is a thrown error. -/
def processClientCode (sha1 : String → String) (ty : String) (b : BundleFiles)
    (file : String) : Except BErr BundleFiles :=
  match lookupKey b.filesClientCacheable file with
  | some contents =>
    .ok (addClientFileToManifest sha1 b file contents ty true (some file) none)
  | none =>
    match lookupKey b.filesClient file with
    | some contents =>
      let hash := sha1 contents
      let b := { b with
        filesClient := delKey b.filesClient file
        filesClientCacheable := setKey b.filesClientCacheable file contents }
      .ok (addClientFileToManifest sha1 b file contents ty true
        (some (file ++ "?" ++ hash)) (some hash))
    | none => .error (.thrown ("unable to find file: " ++ file))

/-- The filesystem-relevant skeleton of `Bundle.writeToDirectory`
(src/tools/bundler.js lines 443-684): remove and recreate the build
directory, stage the client code into the manifest (the loop that can
throw), and finally remove the output path and atomically rename the build
directory onto it.  Byte writes, the server runner copy, and node_modules
placement happen inside the build directory and are outside the artifact
model. -/
def writeToDirectory (sha1 : String → String) (outputPath : String)
    (b : BundleFiles) (fs : FS) : FS × Except BErr BundleFiles :=
  let buildPath := buildPathOf outputPath
  let fs := fsAdd (fsRemove fs buildPath) buildPath
  let staged : Except BErr BundleFiles := do
    let b ← b.jsClient.foldlM (processClientCode sha1 "js") b
    let b ← b.css.foldlM (processClientCode sha1 "css") b
    .ok b
  match staged with
  | .error e => (fs, .error e)
  | .ok b =>
    let fs := fsRemove fs outputPath
    (fsAdd (fsRemove fs buildPath) outputPath, .ok b)

/-- How a call to `exports.bundle` ends: a normal return with `errors:
false`, a return with an errors list (the catch), a `process.exit(1)`, an
exception that escapes `bundle` itself (the option validation throws before
the try), or fuel exhaustion of the embedding. -/
inductive BOutcome : Type
  | success (fs : FS)
  | failed (errors : List String) (fs : FS)
  | exitedProcess (msg : String) (fs : FS)
  | uncaught (msg : String) (fs : FS)
  | outOfFuel (fs : FS)
deriving DecidableEq, Repr

def isFailedOutcome : BOutcome → Bool
  | .failed _ _ => true
  | _ => false

/-- The option validation of `exports.bundle` (src/tools/bundler.js lines
735-742), which runs before the try/catch. -/
structure BundleOptions where
  nodeModulesMode : Option String
  hasLibrary : Bool
  releaseStamp : Option String
deriving DecidableEq, Repr

/-- The body of the try block of `exports.bundle` (src/tools/bundler.js lines
746-780): determine the load order, then run the intermediate stages
(`prepNodeModules`, `emitResources`, optional `minify` — abstracted as
`rest`, since they invoke handlers and linker code outside this repository),
then write to disk.  The filesystem state is threaded so the catch sees the
mutations made before the throw. -/
def tryBody (lib : List (String × Pkg)) (contents : Contents) (fuel : Nat)
    (rest : LoadSt → FS → FS × Except BErr BundleFiles)
    (sha1 : String → String) (outputPath : String) (fs : FS) :
    FS × Except BErr BundleFiles :=
  match determineLoadOrder lib contents fuel with
  | .error e => (fs, .error e)
  | .ok st =>
    match rest st fs with
    | (fs, .error e) => (fs, .error e)
    | (fs, .ok b) => writeToDirectory sha1 outputPath b fs

/-- `exports.bundle` (src/tools/bundler.js lines 734-787): validate options
(throws escape the function), run the pipeline in a try, and on a thrown
error remove the output path and return the message in the `errors` list.
`process.exit(1)` bypasses the catch. -/
def bundleModel (options : Option BundleOptions) (lib : List (String × Pkg))
    (contents : Contents) (fuel : Nat)
    (rest : LoadSt → FS → FS × Except BErr BundleFiles)
    (sha1 : String → String) (outputPath : String) (fs : FS) : BOutcome :=
  match options with
  | none => .uncaught "Must pass options" fs
  | some opts =>
    if opts.nodeModulesMode.isNone then .uncaught "Must pass options.nodeModulesMode" fs
    else if !opts.hasLibrary then .uncaught "Must pass options.library" fs
    else if opts.releaseStamp.isNone then .uncaught "Must pass options.releaseStamp or 'none'" fs
    else
      match tryBody lib contents fuel rest sha1 outputPath fs with
      | (fs, .ok _) => .success fs
      | (fs, .error (.thrown m)) =>
        .failed ["Exception while bundling application:\n" ++ m] (fsRemove fs outputPath)
      | (fs, .error (.exited m)) => .exitedProcess m fs
      | (fs, .error .fuel) => .outOfFuel fs

end Bundler

open Meteor Packages Bundler

/-- First-wins overlay of two optional values: the result of looking a key
up in a map after further additions, in terms of the additions alone and the
previous map. -/
def overlayOpt {α : Type} (a b : Option α) : Option α :=
  match a with
  | some v => some v
  | none => b

/-- Concrete environment for the C3 witness: one source file, no handlers,
a prelink that returns its inputs with a fixed boundary and the forced
exports. -/
def envC3 : CompileEnv where
  readFile := fun _ => some "code"
  sha1 := fun s => "#" ++ s
  prelink := fun inp => ⟨inp.inputFiles, "BOUNDARY", inp.forceExport⟩
  link := fun inp => inp.prelinkFiles

def pkgC3 : PackageP := ⟨some "p", "/src/p", "/packages/p", []⟩

def sC3 : PkgSlice :=
  ⟨pkgC3, "main", "client", [], ["a.js"], ["Foo"], [], false, none, none, none, none⟩

def sC3' : PkgSlice :=
  ⟨pkgC3, "main", "client", [], ["a.js"], ["Foo"],
    [("/src/p/a.js", "#code")], true, some ["Foo"], some "BOUNDARY",
    some [], some [⟨"static", "code", some "/packages/p/a.js"⟩]⟩

/-- A handler provided for an extension among the slice's own package and
the packages of its immediate `uses` entries — the candidates that
`_allHandlers` merges. -/
def providerOf (lib : List (String × PackageP)) (s : PkgSlice)
    (ext : String) (h : Handler) : Prop :=
  (ext, h) ∈ s.pkg.extensions ∨
  ∃ u ∈ s.uses, ∃ pkg, lookupKey lib (baseOf u.spec) = some pkg ∧
    (ext, h) ∈ pkg.extensions

/-- Concrete instance for the C6 witness: packages `x` and `y` both register
a handler for `.less` and the app slice uses both. -/
def handlerX : Handler := ⟨1, some "x", fun _ _ => []⟩

def handlerY : Handler := ⟨2, some "y", fun _ _ => []⟩

def pkgX : PackageP := ⟨some "x", "/src/x", "/packages/x", [("less", handlerX)]⟩

def pkgY : PackageP := ⟨some "y", "/src/y", "/packages/y", [("less", handlerY)]⟩

def libC6 : List (String × PackageP) := [("x", pkgX), ("y", pkgY)]

def appPkgC6 : PackageP := ⟨none, "/app", "/", []⟩

def sC6 : PkgSlice :=
  ⟨appPkgC6, "app", "client", [⟨"x", false⟩, ⟨"y", false⟩], [], [], [],
    false, none, none, none, none⟩

def cErrC6 : AHErr := .conflict none (some "x") (some "y") "less"

/-- The concatenation of the staged client js files joined with `"\n;\n"`,
as collected by `Bundle.minify`. -/
def jsCombined (b : BundleFiles) : String :=
  String.intercalate "\n;\n"
    (b.jsClient.map (fun p => (lookupKey b.filesClient p).getD ""))

/-- The cacheable name `/<sha1(minified js)>.js` that `minify` stores. -/
def minifiedJsName (sha1 minifyJs : String → String) (b : BundleFiles) : String :=
  "/" ++ sha1 (minifyJs (jsCombined b)) ++ "." ++ "js"

def jsCacheablePred (e : ManifestEntry) : Bool :=
  e.mtype == some "js" && e.cacheable == some true

/-- Concrete instances for the C8 counterexample and witness: a stand-in
hash prefixing "H" and identity minifiers. -/
def sha1C8 : String → String := fun s => "H" ++ s

def minJsC8 : String → String := fun s => s

def minCssC8 : String → String := fun s => s

def emptyBundleC8 : BundleFiles := ⟨[], [], [], [], [], [], []⟩

def bC8 : BundleFiles :=
  ⟨["/a.js", "/b.js"], [], [], [("/a.js", "AA"), ("/b.js", "BB")], [], [], []⟩

def bC8' : BundleFiles :=
  ⟨[], [], [], [], [("/HAA\n;\nBB.js", "AA\n;\nBB"), ("/H.css", "")], [],
    [{ mpath := "static_cacheable/HAA\n;\nBB.js", mwhere := "client",
       mtype := some "js", cacheable := some true, url := some "/HAA\n;\nBB.js",
       size := some 7, hash := "HAA\n;\nBB" },
     { mpath := "static_cacheable/H.css", mwhere := "client",
       mtype := some "css", cacheable := some true, url := some "/H.css",
       size := some 0, hash := "H" }]⟩

/-- The edge to `n` is a load-order constraint (the skip at
src/tools/bundler.js line 201 does not fire). -/
def OrdCond (A : BSlice) (n : String) : Prop :=
  ¬(A.pkg.name.isSome = true ∧ A.pkg.isUnordered n = true)

/-- The index is well formed: every binding maps a key to a slice with that
key. -/
def WfIx (ix : List ((Role × Arch × Nat) × BSlice)) : Prop :=
  ∀ k B, lookupKey ix k = some B → skey B = k

/-- The ordered dependency of `slice` on package name `n` resolves and its
`use` slice is in `l`. -/
def DepIn (lib : List (String × Pkg)) (ix : List ((Role × Arch × Nat) × BSlice))
    (slice : BSlice) (n : String) (l : List BSlice) : Prop :=
  ∃ P B, getPackage lib (.byName n) = .ok P ∧
    lookupKey ix (Role.use, slice.arch, P.id) = some B ∧ B ∈ l

/-- The emitted list respects ordered dependencies: every slice's ordered
uses resolve to slices that appear strictly earlier. -/
def GoodL (lib : List (String × Pkg)) (ix : List ((Role × Arch × Nat) × BSlice))
    (l : List BSlice) : Prop :=
  ∀ j A, l.get? j = some A → ∀ n ∈ A.pkg.usesAt A.role A.arch, OrdCond A n →
    ∃ P B i, getPackage lib (.byName n) = .ok P ∧
      lookupKey ix (Role.use, A.arch, P.id) = some B ∧ i < j ∧ l.get? i = some B

/-- Every key marked done corresponds to an already-emitted slice. -/
def DoneInv (ix : List ((Role × Arch × Nat) × BSlice)) (st : LoadSt) : Prop :=
  ∀ k B, lookupKey ix k = some B → k ∈ st.done → B ∈ st.slices

def LoadInv (lib : List (String × Pkg))
    (ix : List ((Role × Arch × Nat) × BSlice)) (st : LoadSt) : Prop :=
  GoodL lib ix st.slices ∧ DoneInv ix st

/-- What one call to `load` guarantees: the invariant is preserved, the
emitted list only grows at the end, done keys persist, and the remaining
map shrinks. -/
def LoadPost (lib : List (String × Pkg))
    (ix : List ((Role × Arch × Nat) × BSlice)) (st st' : LoadSt) : Prop :=
  LoadInv lib ix st' ∧ (∃ l2, st'.slices = st.slices ++ l2) ∧
  (∀ k ∈ st.done, k ∈ st'.done) ∧ (∀ s ∈ st'.remaining, s ∈ st.remaining)

/-- Every entry of `remaining` is indexed under its own key. -/
def RemOk (ix : List ((Role × Arch × Nat) × BSlice)) (st : LoadSt) : Prop :=
  ∀ s ∈ st.remaining, lookupKey ix (skey s) = some s

/-- Invariant of the first phase: the index is well formed and every slice
collected in `slicesUnordered` is indexed under its own key. -/
def Wf1 (st : Phase1St) : Prop :=
  WfIx st.index ∧ ∀ s ∈ st.order, lookupKey st.index (skey s) = some s

/-- Concrete instances for the C1 theorem's unordered-cycle conjunct and for
the witness. -/
def c1PkgAU : Pkg := ⟨1, some "a", ["b"], ["b"], [], [], ["b"]⟩

def c1PkgBU : Pkg := ⟨2, some "b", ["a"], ["a"], [], [], []⟩

def c1LibU : List (String × Pkg) := [("a", c1PkgAU), ("b", c1PkgBU)]

def c1Contents : Contents := [(Role.use, Arch.client, [PkgRef.byName "a"])]

def c1PkgA : Pkg := ⟨1, some "a", ["b"], ["b"], [], [], []⟩

def c1PkgB : Pkg := ⟨2, some "b", [], [], [], [], []⟩

def c1LibT : List (String × Pkg) := [("a", c1PkgA), ("b", c1PkgB)]

def c1StT : LoadSt :=
  ⟨[⟨c1PkgB, Role.use, Arch.client⟩, ⟨c1PkgA, Role.use, Arch.client⟩],
   [(Role.use, Arch.client, 2), (Role.use, Arch.client, 1)], [], []⟩

/-- Error-shape predicate: if the error is the `console.error` +
`process.exit(1)` variant, its message has the fatal circular-dependency
form naming two packages. -/
def cycleShape (e : BErr) : Prop :=
  ∀ m, e = BErr.exited m → ∃ x y,
    m = "fatal: circular dependency between packages " ++ x ++ " and " ++ y

/-- Concrete two-package ordered cycle (`a` uses `b`, `b` uses `a`, neither
unordered) and fixed bundle-call parameters. -/
def c5Pkg1 : Pkg := ⟨1, some "a", ["b"], [], [], [], []⟩

def c5Pkg2 : Pkg := ⟨2, some "b", ["a"], [], [], [], []⟩

def c5Lib : List (String × Pkg) := [("a", c5Pkg1), ("b", c5Pkg2)]

def c5Contents : Contents := [(Role.use, Arch.client, [PkgRef.byName "a"])]

def c5Rest : LoadSt → FS → FS × Except BErr BundleFiles :=
  fun _ fs => (fs, .error .fuel)

def c5Sha : String → String := fun _ => "h"

def c5Opts : BundleOptions := ⟨some "skip", true, some "none"⟩

/-- Concrete run whose write phase throws: the staged bundle lists `/x.js`
in the client js load order but has no staged file for it, so
`processClientCode` throws `unable to find file: /x.js`. -/
def c4Bundle : BundleFiles := ⟨["/x.js"], [], [], [], [], [], []⟩

def c4Rest : LoadSt → FS → FS × Except BErr BundleFiles :=
  fun _ fs => (fs, .ok c4Bundle)

def c4Sha : String → String := fun _ => "h"

def c4Opts : BundleOptions := ⟨some "skip", true, some "none"⟩

/-- Concrete compilation run for the dependency-sha trace: one package with
one plain source file and no extension handlers. -/
def c7Pkg : PackageP := ⟨some "p", "/pk", "/pk", []⟩

def c7Slice : PkgSlice :=
  ⟨c7Pkg, "main", "client", [], ["a.js"], [], [], false, none, none, none,
   none⟩

def c7Env : CompileEnv :=
  ⟨fun p => if p == "/pk/a.js" then some "alert(1)" else none,
   fun c => "#" ++ c,
   fun inp => ⟨inp.inputFiles, "B", []⟩,
   fun inp => inp.prelinkFiles⟩

/-- Concrete scan: an unsorted enumeration of two html and two js files
under `/r` (the sort comparator of files.js is outside this repository's
sources, so it is the identity parameter here). -/
def c9ScanEnv : ScanEnv :=
  ⟨fun _ _ => ["/r/z.js", "/r/a.html", "/r/m.js", "/r/b.html"], fun l => l⟩

/-- Concrete slice whose sources are `[z.js, a.html, m.js, b.html]`: the
html handler emits a `head` resource per file and the js handler a js
fragment per file. -/
def c9HtmlHandler : Handler :=
  ⟨1, some "p", fun src serve =>
    [⟨"head", some serve, none, some (.dstr ("H:" ++ src)), none⟩]⟩

def c9JsHandler : Handler :=
  ⟨2, some "p", fun src serve =>
    [⟨"js", some serve, none, some (.dstr ("J:" ++ src)), none⟩]⟩

def c9Pkg : PackageP :=
  ⟨some "p", "/app", "", [("html", c9HtmlHandler), ("js", c9JsHandler)]⟩

def c9Slice : PkgSlice :=
  ⟨c9Pkg, "main", "client", [], ["z.js", "a.html", "m.js", "b.html"], [], [],
   false, none, none, none, none⟩

def c9Env : CompileEnv :=
  ⟨fun p => some ("C:" ++ p), fun c => "#" ++ c,
   fun inp => ⟨inp.inputFiles, "B", []⟩, fun inp => inp.prelinkFiles⟩

def c9Resolve : String → String → List CompiledView := fun _ _ => []

theorem lookupKey_setKey {κ α : Type} [DecidableEq κ]
    (m : List (κ × α)) (k k' : κ) (v : α) :
    lookupKey (setKey m k v) k' = if k = k' then some v else lookupKey m k' := by
  induction m with
  | nil =>
    by_cases h : k = k' <;> simp [setKey, lookupKey, h]
  | cons kv rest ih =>
    obtain ⟨k0, v0⟩ := kv
    by_cases h0 : k0 = k
    · subst h0
      by_cases h1 : k0 = k' <;> simp [setKey, lookupKey, h1]
    · by_cases h1 : k0 = k'
      · subst h1
        have h2 : ¬ k = k0 := fun h => h0 h.symm
        simp [setKey, lookupKey, h0, h2]
      · simp [setKey, lookupKey, h0, h1, ih]

theorem lookupKey_delKey {κ α : Type} [DecidableEq κ]
    (m : List (κ × α)) (k k' : κ) :
    lookupKey (delKey m k) k' = if k' = k then none else lookupKey m k' := by
  induction m with
  | nil => by_cases h : k' = k <;> simp [delKey, lookupKey, h]
  | cons kv rest ih =>
    obtain ⟨k0, v0⟩ := kv
    simp only [delKey] at ih ⊢
    by_cases h0 : k0 = k
    · by_cases h1 : k' = k
      · simp only [List.filter_cons, h0, h1]
        simpa [h1] using ih
      · have h3 : ¬ k = k' := fun h => h1 h.symm
        simp only [List.filter_cons, h0]
        simp only [lookupKey, h3]
        simp [h1, h3] at ih ⊢
        exact ih
    · by_cases h1 : k0 = k'
      · have h2 : ¬ k' = k := fun h => h0 (h1.trans h)
        simp [List.filter_cons, lookupKey, h0, h1, h2]
      · simp [List.filter_cons, lookupKey, h0, h1]
        simpa using ih

theorem htmlHack_foldl (l : List String) (htmls fl : List String) :
    l.foldl htmlHackStep (htmls, fl) =
      (htmls ++ l.filter (fun f => extnameOf f == ".html"),
       fl.filter (fun x => !(extnameOf x == ".html" && l.contains x))) := by
  induction l generalizing htmls fl with
  | nil => simp
  | cons f rest ih =>
    by_cases hf : extnameOf f = ".html"
    · have hstep : htmlHackStep (htmls, fl) f =
          (htmls ++ [f], fl.filter (fun g => !(g == f))) := by
        simp [htmlHackStep, hf]
      rw [List.foldl_cons, hstep, ih, Prod.mk.injEq]
      refine ⟨?_, ?_⟩
      · simp [List.filter_cons, hf]
      · rw [List.filter_filter]
        apply List.filter_congr
        intro x _
        by_cases hx : x = f
        · subst hx
          simp [hf]
        · simp [hx, List.contains_cons]
    · have hstep : htmlHackStep (htmls, fl) f = (htmls, fl) := by
        simp [htmlHackStep, hf]
      rw [List.foldl_cons, hstep, ih, Prod.mk.injEq]
      refine ⟨?_, ?_⟩
      · simp [List.filter_cons, hf]
      · apply List.filter_congr
        intro x _
        by_cases hx : extnameOf x = ".html"
        · have hxf : ¬ x = f := fun h => hf (h ▸ hx)
          simp [hx, hxf, List.contains_cons]
        · have h2 : (extnameOf x == ".html") = false := by simp [hx]
          simp [h2]

/-- The mutating html-first loop is a stable partition: html files first,
then the rest, each group keeping its relative order. -/
theorem htmlHack_eq_stable_partition (l : List String) :
    htmlHack l = l.filter (fun f => extnameOf f == ".html") ++
      l.filter (fun f => !(extnameOf f == ".html")) := by
  unfold htmlHack
  rw [htmlHack_foldl]
  simp only [List.nil_append]
  congr 1
  apply List.filter_congr
  intro x hx
  have hc : l.contains x = true := List.elem_eq_true_of_mem hx
  by_cases hH : extnameOf x = ".html" <;> simp [hH, hc, hx]

theorem exceptBindOk {ε α β : Type} (x : α) (f : α → Except ε β) :
    (Except.ok x >>= f) = f x := rfl

theorem foldlM_const_ok {α β : Type} (l : List α) (acc : β)
    (f : β → α → Except String β) (h : ∀ x a, f x a = .ok x) :
    l.foldlM f acc = .ok acc := by
  induction l generalizing acc with
  | nil => rfl
  | cons a rest ih =>
    simp only [List.foldlM_cons, h acc a, exceptBindOk]
    exact ih acc

theorem apiUse_absent_step (names : List String) (acc : ApiAcc) (u : Bool) :
    names.foldlM (fun acc name =>
      (["client", "server"]).foldlM (fun acc arch =>
        if roleOverride none then
          Except.error "Role override is no longer supported"
        else pushUse acc ⟨name, u⟩ arch) acc) acc =
    .ok { acc with
      usesClient := acc.usesClient ++ names.map (fun n => ⟨n, u⟩)
      usesServer := acc.usesServer ++ names.map (fun n => ⟨n, u⟩) } := by
  induction names generalizing acc with
  | nil =>
    simp only [List.foldlM_nil, List.map_nil, List.append_nil]
    rfl
  | cons n rest ih =>
    have hstep : (["client", "server"]).foldlM (fun acc arch =>
        if roleOverride none then
          Except.error "Role override is no longer supported"
        else pushUse acc ⟨n, u⟩ arch) acc =
      .ok { acc with
        usesClient := acc.usesClient ++ [⟨n, u⟩]
        usesServer := acc.usesServer ++ [⟨n, u⟩] } := rfl
    rw [List.foldlM_cons, hstep, exceptBindOk, ih]
    simp

/-- C10: in the slice-building capability, `add_files` and `exportSymbol`
with `where` omitted normalize the arch list to `[]` and so change nothing
(a silent no-op), whereas `use` with `where` omitted defaults to both
`client` and `server`, appending the edge `{spec: name, unordered: false}`
to both archs. -/
theorem c10_where_defaults (acc : ApiAcc) (paths symbols names : JsArg String) :
    apiAddFiles acc paths .absent = .ok acc ∧
    apiExportSymbol acc symbols .absent = .ok acc ∧
    apiUse acc names .absent ⟨none, false⟩ =
      .ok { acc with
        usesClient := acc.usesClient ++ (normalizeArg names).map (fun n => ⟨n, false⟩)
        usesServer := acc.usesServer ++ (normalizeArg names).map (fun n => ⟨n, false⟩) } := by
  refine ⟨?_, ?_, ?_⟩
  · exact foldlM_const_ok _ acc _ (fun x a => rfl)
  · exact foldlM_const_ok _ acc _ (fun x a => rfl)
  · exact apiUse_absent_step (normalizeArg names) acc false

theorem overlayOpt_assoc {α : Type} (a b c : Option α) :
    overlayOpt a (overlayOpt b c) = overlayOpt (overlayOpt a b) c := by
  cases a <;> rfl

theorem lookup_setKey_chain (l : List String) (v : Option String)
    (m : List (String × Option String)) (s : String) :
    lookupKey (l.foldl (fun m sym => setKey m sym v) m) s =
      if l.contains s then some v else lookupKey m s := by
  induction l generalizing m with
  | nil => simp
  | cons e rest ih =>
    rw [List.foldl_cons, ih]
    by_cases he : e = s
    · subst he
      by_cases hr : e ∈ rest <;> simp [List.contains_cons, lookupKey_setKey, hr]
    · have he' : ¬ s = e := fun h => he h.symm
      by_cases hr : s ∈ rest <;>
        simp [List.contains_cons, lookupKey_setKey, he, he', hr]

theorem lookup_impOne (m : List (String × Option String)) (cv : CompiledView)
    (s : String) :
    lookupKey (impOne m cv) s =
      if cv.exports.contains s then some cv.pkgName else lookupKey m s := by
  unfold impOne
  exact lookup_setKey_chain cv.exports cv.pkgName m s

theorem lookup_impOne_overlay (m : List (String × Option String))
    (cv : CompiledView) (s : String) :
    lookupKey (impOne m cv) s =
      overlayOpt (lookupKey (impOne [] cv) s) (lookupKey m s) := by
  rw [lookup_impOne, lookup_impOne]
  by_cases h : s ∈ cv.exports <;> simp [h, overlayOpt, lookupKey]

theorem lookup_impOne_fold (cvs : List CompiledView)
    (m : List (String × Option String)) (s : String) :
    lookupKey (cvs.foldl impOne m) s =
      overlayOpt (lookupKey (cvs.foldl impOne []) s) (lookupKey m s) := by
  induction cvs generalizing m with
  | nil => simp [overlayOpt, lookupKey]
  | cons c rest ih =>
    rw [List.foldl_cons, List.foldl_cons, ih (impOne m c), ih (impOne [] c),
      lookup_impOne_overlay, overlayOpt_assoc]

theorem lookup_impUse (resolve : String → String → List CompiledView)
    (arch : String) (m : List (String × Option String)) (u : UseEntry)
    (s : String) :
    lookupKey (impUse resolve arch m u) s =
      overlayOpt (lookupKey (impUse resolve arch [] u) s) (lookupKey m s) := by
  unfold impUse
  by_cases h : u.unordered
  · simp [h, overlayOpt, lookupKey]
  · simp only [h, if_neg, Bool.false_eq_true, ite_false]
    exact lookup_impOne_fold _ m s

theorem computeImports_filter (resolve : String → String → List CompiledView)
    (arch : String) (uses : List UseEntry)
    (m : List (String × Option String)) :
    uses.foldl (impUse resolve arch) m =
      (uses.filter (fun u => !u.unordered)).foldl (impUse resolve arch) m := by
  induction uses generalizing m with
  | nil => rfl
  | cons u rest ih =>
    by_cases h : u.unordered
    · have : impUse resolve arch m u = m := by simp [impUse, h]
      simp [List.filter_cons, h, this, ih]
    · simp [List.filter_cons, h, ih]

/-- C2: the import map of `Slice.getResources` is the fold of the ordered
`uses` list: (i) entries marked `unordered` contribute nothing (the map
equals the map of the filtered list), and (ii) appending a further `uses`
entry overlays its own symbol→package assignments over whatever the earlier
entries produced, so for every symbol the later entry supplies the import
whenever it exports that symbol, and the earlier entries' answer survives
exactly when it does not. -/
theorem c2_import_map_later_wins
    (resolve : String → String → List CompiledView) (arch : String)
    (uses pre : List UseEntry) (u : UseEntry) (s : String) :
    computeImports resolve arch uses =
      computeImports resolve arch (uses.filter (fun u => !u.unordered)) ∧
    lookupKey (computeImports resolve arch (pre ++ [u])) s =
      overlayOpt (lookupKey (impUse resolve arch [] u) s)
        (lookupKey (computeImports resolve arch pre) s) := by
  constructor
  · exact computeImports_filter resolve arch uses []
  · unfold computeImports
    rw [List.foldl_append, List.foldl_cons, List.foldl_nil]
    exact lookup_impUse resolve arch _ u s

theorem ensureCompiled_of_compiled (env : CompileEnv)
    (lib : List (String × PackageP)) (s : PkgSlice) (h : s.isCompiled = true) :
    ensureCompiled env lib s = .ok s := by
  unfold ensureCompiled
  simp [h]

theorem ensureCompiledN_of_compiled (env : CompileEnv)
    (lib : List (String × PackageP)) (s : PkgSlice) (h : s.isCompiled = true) :
    ∀ n, ensureCompiledN env lib n s = .ok s := by
  intro n
  induction n with
  | zero => rfl
  | succ n ih =>
    show (ensureCompiled env lib s >>= ensureCompiledN env lib n) = .ok s
    rw [ensureCompiled_of_compiled env lib s h, exceptBindOk]
    exact ih

/-- C3: `_ensureCompiled` is an idempotent latch.  A successful call returns
a slice marked compiled; calling `_ensureCompiled` on that result is a no-op
returning it unchanged, and hence any number of further calls returns the
same `exports`, `boundary`, `prelinkFiles` and `resources`; the first
successful call on an uncompiled slice is the one that sets all four
fields. -/
theorem c3_compile_idempotent_latch (env : CompileEnv)
    (lib : List (String × PackageP)) (s s' : PkgSlice)
    (h : ensureCompiled env lib s = .ok s') :
    s'.isCompiled = true ∧
    ensureCompiled env lib s' = .ok s' ∧
    (∀ n, ensureCompiledN env lib (n + 1) s = .ok s') ∧
    (s.isCompiled = false →
      s'.exports.isSome ∧ s'.boundary.isSome ∧
      s'.prelinkFiles.isSome ∧ s'.resources.isSome) := by
  have hcompiled : s'.isCompiled = true ∧
      (s.isCompiled = false →
        s'.exports.isSome ∧ s'.boundary.isSome ∧
        s'.prelinkFiles.isSome ∧ s'.resources.isSome) := by
    unfold ensureCompiled at h
    by_cases hc : s.isCompiled
    · simp [hc] at h
      subst h
      simp [hc]
    · simp only [hc, Bool.false_eq_true, if_false] at h
      cases hacc : s.sources.foldlM (compileOne env lib s) ⟨[], [], s.depFiles⟩ with
      | error e =>
        rw [hacc] at h
        exact Except.noConfusion h
      | ok acc =>
        rw [hacc, exceptBindOk] at h
        have h' := h
        injection h' with h''
        subst h''
        simp [hc]
  refine ⟨hcompiled.1, ensureCompiled_of_compiled env lib s' hcompiled.1, ?_, hcompiled.2⟩
  intro n
  show (ensureCompiled env lib s >>= ensureCompiledN env lib n) = .ok s'
  rw [h, exceptBindOk]
  exact ensureCompiledN_of_compiled env lib s' hcompiled.1 n

theorem c3_compile_idempotent_latch_witness :
    ensureCompiled envC3 [] sC3 = .ok sC3' ∧
    ensureCompiled envC3 [] sC3' = .ok sC3' ∧
    sC3'.isCompiled = true ∧ sC3'.exports.isSome := by
  have h : ensureCompiled envC3 [] sC3 = .ok sC3' := rfl
  have hmain := c3_compile_idempotent_latch envC3 [] sC3 sC3' h
  exact ⟨h, hmain.2.1, hmain.1, (hmain.2.2.2 rfl).1⟩

theorem mergeExts_sound (selfName otherName : Option String)
    (R : String → Handler → Prop)
    (exts : List (String × Handler)) :
    ∀ ret ret', (∀ p ∈ exts, R p.1 p.2) →
    (∀ ext h, lookupKey ret ext = some h → R ext h) →
    mergeExts selfName otherName exts ret = .ok ret' →
    ∀ ext h, lookupKey ret' ext = some h → R ext h := by
  induction exts with
  | nil =>
    intro ret ret' _ Hret hok
    injection hok with h
    subst h
    exact Hret
  | cons p rest ih =>
    intro ret ret' Hexts Hret hok
    obtain ⟨ext0, handler⟩ := p
    have Hrest : ∀ p ∈ rest, R p.1 p.2 :=
      fun p hp => Hexts p (List.mem_cons_of_mem _ hp)
    have Hset : ∀ ext h, lookupKey (setKey ret ext0 handler) ext = some h → R ext h := by
      intro ext h hl
      rw [lookupKey_setKey] at hl
      by_cases he : ext0 = ext
      · rw [if_pos he] at hl
        injection hl with hv
        subst hv
        exact he ▸ Hexts (ext0, handler) (List.mem_cons_self _ _)
      · rw [if_neg he] at hl
        exact Hret ext h hl
    unfold mergeExts at hok
    cases hlk : lookupKey ret ext0 with
    | some h0 =>
      simp only [hlk] at hok
      by_cases hq : h0.hid ≠ handler.hid
      · rw [if_pos hq] at hok
        exact Except.noConfusion hok
      · rw [if_neg hq] at hok
        exact ih _ _ Hrest Hset hok
    | none =>
      simp only [hlk] at hok
      exact ih _ _ Hrest Hset hok

theorem mergeExts_complete (selfName otherName : Option String)
    (exts : List (String × Handler)) :
    ∀ ret ret', mergeExts selfName otherName exts ret = .ok ret' →
    (∀ ext h, lookupKey ret ext = some h →
      ∃ h', lookupKey ret' ext = some h' ∧ h'.hid = h.hid) ∧
    (∀ p ∈ exts, ∃ h', lookupKey ret' p.1 = some h' ∧ h'.hid = p.2.hid) := by
  induction exts with
  | nil =>
    intro ret ret' hok
    injection hok with h
    subst h
    exact ⟨fun ext h hl => ⟨h, hl, rfl⟩, fun p hp => absurd hp (List.not_mem_nil p)⟩
  | cons p rest ih =>
    intro ret ret' hok
    obtain ⟨ext0, handler⟩ := p
    unfold mergeExts at hok
    cases hlk : lookupKey ret ext0 with
    | some h0 =>
      simp only [hlk] at hok
      by_cases hq : h0.hid ≠ handler.hid
      · rw [if_pos hq] at hok
        exact Except.noConfusion hok
      · rw [if_neg hq] at hok
        have hq' : h0.hid = handler.hid := not_not.mp (fun hne => hq hne)
        obtain ⟨iha, ihb⟩ := ih _ _ hok
        refine ⟨?_, ?_⟩
        · intro ext h hl
          by_cases he : ext0 = ext
          · subst he
            have : lookupKey (setKey ret ext0 handler) ext0 = some handler := by
              rw [lookupKey_setKey, if_pos rfl]
            obtain ⟨h', hl', hh'⟩ := iha ext0 handler this
            refine ⟨h', hl', ?_⟩
            rw [hh', ← hq']
            have : h0 = h := by
              rw [hlk] at hl
              injection hl
            rw [this]
          · have : lookupKey (setKey ret ext0 handler) ext = some h := by
              rw [lookupKey_setKey, if_neg he]
              exact hl
            exact iha ext h this
        · intro p hp
          rcases List.mem_cons.mp hp with heq | hmem
          · subst heq
            have : lookupKey (setKey ret ext0 handler) ext0 = some handler := by
              rw [lookupKey_setKey, if_pos rfl]
            exact iha ext0 handler this
          · exact ihb p hmem
    | none =>
      simp only [hlk] at hok
      obtain ⟨iha, ihb⟩ := ih _ _ hok
      refine ⟨?_, ?_⟩
      · intro ext h hl
        have he : ¬ ext0 = ext := by
          intro he
          subst he
          rw [hlk] at hl
          exact Option.noConfusion hl
        have : lookupKey (setKey ret ext0 handler) ext = some h := by
          rw [lookupKey_setKey, if_neg he]
          exact hl
        exact iha ext h this
      · intro p hp
        rcases List.mem_cons.mp hp with heq | hmem
        · subst heq
          have : lookupKey (setKey ret ext0 handler) ext0 = some handler := by
            rw [lookupKey_setKey, if_pos rfl]
          exact iha ext0 handler this
        · exact ihb p hmem

theorem mergeExts_noError (selfName otherName : Option String)
    (R : String → Handler → Prop)
    (HidFun : ∀ ext h1 h2, R ext h1 → R ext h2 → h1.hid = h2.hid)
    (exts : List (String × Handler)) :
    ∀ ret, (∀ p ∈ exts, R p.1 p.2) →
    (∀ ext h, lookupKey ret ext = some h → R ext h) →
    ∃ ret', mergeExts selfName otherName exts ret = .ok ret' := by
  induction exts with
  | nil => exact fun ret _ _ => ⟨ret, rfl⟩
  | cons p rest ih =>
    intro ret Hexts Hret
    obtain ⟨ext0, handler⟩ := p
    have Hrest : ∀ p ∈ rest, R p.1 p.2 :=
      fun p hp => Hexts p (List.mem_cons_of_mem _ hp)
    have Hset : ∀ ext h, lookupKey (setKey ret ext0 handler) ext = some h → R ext h := by
      intro ext h hl
      rw [lookupKey_setKey] at hl
      by_cases he : ext0 = ext
      · rw [if_pos he] at hl
        injection hl with hv
        subst hv
        exact he ▸ Hexts (ext0, handler) (List.mem_cons_self _ _)
      · rw [if_neg he] at hl
        exact Hret ext h hl
    obtain ⟨ret', hret'⟩ := ih (setKey ret ext0 handler) Hrest Hset
    cases hlk : lookupKey ret ext0 with
    | some h0 =>
      have hq : ¬ h0.hid ≠ handler.hid := by
        have hR0 : R ext0 h0 := Hret ext0 h0 hlk
        have hR1 : R ext0 handler := Hexts (ext0, handler) (List.mem_cons_self _ _)
        exact not_not.mpr (HidFun ext0 h0 handler hR0 hR1)
      refine ⟨ret', ?_⟩
      unfold mergeExts
      simp only [hlk]
      rw [if_neg hq]
      exact hret'
    | none =>
      refine ⟨ret', ?_⟩
      unfold mergeExts
      simp only [hlk]
      exact hret'

theorem mergeExts_error_shape (selfName otherName : Option String)
    (R : String → Handler → Prop)
    (exts : List (String × Handler)) :
    ∀ ret e, (∀ p ∈ exts, R p.1 p.2) →
    (∀ ext h, lookupKey ret ext = some h → R ext h) →
    mergeExts selfName otherName exts ret = .error e →
    ∃ ext h0 h1, e = .conflict selfName h0.pkgName otherName ext ∧
      R ext h0 ∧ (ext, h1) ∈ exts ∧ h0.hid ≠ h1.hid := by
  induction exts with
  | nil =>
    intro ret e _ _ hbad
    exact Except.noConfusion hbad
  | cons p rest ih =>
    intro ret e Hexts Hret hbad
    obtain ⟨ext0, handler⟩ := p
    have Hrest : ∀ p ∈ rest, R p.1 p.2 :=
      fun p hp => Hexts p (List.mem_cons_of_mem _ hp)
    have Hset : ∀ ext h, lookupKey (setKey ret ext0 handler) ext = some h → R ext h := by
      intro ext h hl
      rw [lookupKey_setKey] at hl
      by_cases he : ext0 = ext
      · rw [if_pos he] at hl
        injection hl with hv
        subst hv
        exact he ▸ Hexts (ext0, handler) (List.mem_cons_self _ _)
      · rw [if_neg he] at hl
        exact Hret ext h hl
    unfold mergeExts at hbad
    cases hlk : lookupKey ret ext0 with
    | some h0 =>
      simp only [hlk] at hbad
      by_cases hq : h0.hid ≠ handler.hid
      · rw [if_pos hq] at hbad
        injection hbad with hbe
        exact ⟨ext0, h0, handler, hbe.symm, Hret ext0 h0 hlk,
          List.mem_cons_self _ _, hq⟩
      · rw [if_neg hq] at hbad
        obtain ⟨ext, h0', h1, he, hR, hmem, hne⟩ := ih _ _ Hrest Hset hbad
        exact ⟨ext, h0', h1, he, hR, List.mem_cons_of_mem _ hmem, hne⟩
    | none =>
      simp only [hlk] at hbad
      obtain ⟨ext, h0', h1, he, hR, hmem, hne⟩ := ih _ _ Hrest Hset hbad
      exact ⟨ext, h0', h1, he, hR, List.mem_cons_of_mem _ hmem, hne⟩

theorem extendMap_mem {κ α : Type} [DecidableEq κ] (kvs : List (κ × α)) :
    ∀ m0 k v, lookupKey (extendMap m0 kvs) k = some v →
      (k, v) ∈ kvs ∨ lookupKey m0 k = some v := by
  induction kvs with
  | nil => exact fun m0 k v h => Or.inr h
  | cons p rest ih =>
    intro m0 k v h
    obtain ⟨k0, v0⟩ := p
    rcases ih (setKey m0 k0 v0) k v h with hr | hm
    · exact Or.inl (List.mem_cons_of_mem _ hr)
    · rw [lookupKey_setKey] at hm
      by_cases he : k0 = k
      · rw [if_pos he] at hm
        injection hm with hv
        subst he
        rw [← hv]
        exact Or.inl (List.mem_cons_self _ _)
      · rw [if_neg he] at hm
        exact Or.inr hm

theorem extendMap_not_key {κ α : Type} [DecidableEq κ] (kvs : List (κ × α)) :
    ∀ m0 k, k ∉ kvs.map Prod.fst →
      lookupKey (extendMap m0 kvs) k = lookupKey m0 k := by
  induction kvs with
  | nil => exact fun m0 k _ => rfl
  | cons p rest ih =>
    intro m0 k hk
    obtain ⟨k0, v0⟩ := p
    simp only [List.map_cons, List.mem_cons, not_or] at hk
    have : lookupKey (extendMap (setKey m0 k0 v0) rest) k =
        lookupKey (setKey m0 k0 v0) k := ih _ k hk.2
    rw [show extendMap m0 ((k0, v0) :: rest) = extendMap (setKey m0 k0 v0) rest from rfl,
      this, lookupKey_setKey, if_neg (fun h => hk.1 h.symm)]

theorem extendMap_nodup_lookup {κ α : Type} [DecidableEq κ] (kvs : List (κ × α)) :
    ∀ m0, (kvs.map Prod.fst).Nodup →
      ∀ p ∈ kvs, lookupKey (extendMap m0 kvs) p.1 = some p.2 := by
  induction kvs with
  | nil => exact fun m0 _ p hp => absurd hp (List.not_mem_nil p)
  | cons q rest ih =>
    intro m0 hnd p hp
    obtain ⟨k0, v0⟩ := q
    simp only [List.map_cons, List.nodup_cons] at hnd
    rcases List.mem_cons.mp hp with heq | hmem
    · subst heq
      show lookupKey (extendMap (setKey m0 k0 v0) rest) k0 = some v0
      rw [extendMap_not_key rest _ k0 hnd.1, lookupKey_setKey, if_pos rfl]
    · exact ih (setKey m0 k0 v0) hnd.2 p hmem

theorem libGet_ok (lib : List (String × PackageP)) (n : String) (p : PackageP) :
    libGet lib n = .ok p ↔ lookupKey lib n = some p := by
  unfold libGet
  cases h : lookupKey lib n with
  | some q =>
    constructor
    · intro hq
      injection hq with hq
      rw [hq]
    · intro hq
      injection hq with hq
      rw [hq]
  | none =>
    constructor
    · intro hq
      exact Except.noConfusion hq
    · intro hq
      exact Option.noConfusion hq

theorem allHandlersAux_sound (lib : List (String × PackageP)) (s : PkgSlice) :
    ∀ us ret m, (∀ u ∈ us, u ∈ s.uses) →
    (∀ ext h, lookupKey ret ext = some h → providerOf lib s ext h) →
    allHandlersAux lib s.pkg.name us ret = .ok m →
    ∀ ext h, lookupKey m ext = some h → providerOf lib s ext h := by
  intro us
  induction us with
  | nil =>
    intro ret m _ Hret hok
    injection hok with h
    subst h
    exact Hret
  | cons u rest ih =>
    intro ret m hus Hret hok
    unfold allHandlersAux at hok
    cases hlg : libGet lib (baseOf u.spec) with
    | error e =>
      rw [hlg] at hok
      exact Except.noConfusion hok
    | ok otherPkg =>
      rw [hlg, exceptBindOk] at hok
      have hlk : lookupKey lib (baseOf u.spec) = some otherPkg :=
        (libGet_ok lib _ otherPkg).mp hlg
      have Hexts : ∀ p ∈ otherPkg.extensions, providerOf lib s p.1 p.2 :=
        fun p hp => Or.inr ⟨u, hus u (List.mem_cons_self _ _), otherPkg, hlk, hp⟩
      cases hmg : mergeExts s.pkg.name otherPkg.name otherPkg.extensions ret with
      | error e =>
        rw [hmg] at hok
        exact Except.noConfusion hok
      | ok ret1 =>
        rw [hmg, exceptBindOk] at hok
        have Hret1 := mergeExts_sound s.pkg.name otherPkg.name
          (providerOf lib s) otherPkg.extensions ret ret1 Hexts Hret hmg
        exact ih ret1 m (fun v hv => hus v (List.mem_cons_of_mem _ hv)) Hret1 hok

theorem allHandlersAux_complete (lib : List (String × PackageP)) (sn : Option String) :
    ∀ us ret m, allHandlersAux lib sn us ret = .ok m →
    (∀ ext h, lookupKey ret ext = some h →
      ∃ h', lookupKey m ext = some h' ∧ h'.hid = h.hid) ∧
    (∀ u ∈ us, ∀ pkg, lookupKey lib (baseOf u.spec) = some pkg →
      ∀ p ∈ pkg.extensions, ∃ h', lookupKey m p.1 = some h' ∧ h'.hid = p.2.hid) := by
  intro us
  induction us with
  | nil =>
    intro ret m hok
    injection hok with h
    subst h
    exact ⟨fun ext h hl => ⟨h, hl, rfl⟩, fun u hu => absurd hu (List.not_mem_nil u)⟩
  | cons u rest ih =>
    intro ret m hok
    unfold allHandlersAux at hok
    cases hlg : libGet lib (baseOf u.spec) with
    | error e =>
      rw [hlg] at hok
      exact Except.noConfusion hok
    | ok otherPkg =>
      rw [hlg, exceptBindOk] at hok
      have hlk : lookupKey lib (baseOf u.spec) = some otherPkg :=
        (libGet_ok lib _ otherPkg).mp hlg
      cases hmg : mergeExts sn otherPkg.name otherPkg.extensions ret with
      | error e =>
        rw [hmg] at hok
        exact Except.noConfusion hok
      | ok ret1 =>
        rw [hmg, exceptBindOk] at hok
        obtain ⟨ma, mb⟩ := mergeExts_complete sn otherPkg.name otherPkg.extensions ret ret1 hmg
        obtain ⟨iha, ihb⟩ := ih ret1 m hok
        refine ⟨?_, ?_⟩
        · intro ext h hl
          obtain ⟨h1, hl1, hh1⟩ := ma ext h hl
          obtain ⟨h', hl', hh'⟩ := iha ext h1 hl1
          exact ⟨h', hl', by rw [hh', hh1]⟩
        · intro v hv pkg hpkg p hp
          rcases List.mem_cons.mp hv with heq | hmem
          · subst heq
            rw [hlk] at hpkg
            injection hpkg with hpkg
            subst hpkg
            obtain ⟨h1, hl1, hh1⟩ := mb p hp
            obtain ⟨h', hl', hh'⟩ := iha p.1 h1 hl1
            exact ⟨h', hl', by rw [hh', hh1]⟩
          · exact ihb v hmem pkg hpkg p hp

theorem allHandlersAux_noError (lib : List (String × PackageP)) (s : PkgSlice)
    (HidFun : ∀ ext h1 h2, providerOf lib s ext h1 → providerOf lib s ext h2 →
      h1.hid = h2.hid) :
    ∀ us ret, (∀ u ∈ us, u ∈ s.uses) →
    (∀ u ∈ us, ∃ pkg, lookupKey lib (baseOf u.spec) = some pkg) →
    (∀ ext h, lookupKey ret ext = some h → providerOf lib s ext h) →
    ∃ m, allHandlersAux lib s.pkg.name us ret = .ok m := by
  intro us
  induction us with
  | nil => exact fun ret _ _ _ => ⟨ret, rfl⟩
  | cons u rest ih =>
    intro ret hus hres Hret
    obtain ⟨pkg, hpkg⟩ := hres u (List.mem_cons_self _ _)
    have Hexts : ∀ p ∈ pkg.extensions, providerOf lib s p.1 p.2 :=
      fun p hp => Or.inr ⟨u, hus u (List.mem_cons_self _ _), pkg, hpkg, hp⟩
    obtain ⟨ret1, hret1⟩ := mergeExts_noError s.pkg.name pkg.name
      (providerOf lib s) HidFun pkg.extensions ret Hexts Hret
    have Hret1 := mergeExts_sound s.pkg.name pkg.name (providerOf lib s)
      pkg.extensions ret ret1 Hexts Hret hret1
    obtain ⟨m, hm⟩ := ih ret1 (fun v hv => hus v (List.mem_cons_of_mem _ hv))
      (fun v hv => hres v (List.mem_cons_of_mem _ hv)) Hret1
    refine ⟨m, ?_⟩
    unfold allHandlersAux
    have hlg : libGet lib (baseOf u.spec) = .ok pkg := (libGet_ok lib _ pkg).mpr hpkg
    rw [hlg, exceptBindOk, hret1, exceptBindOk]
    exact hm

theorem allHandlersAux_error (lib : List (String × PackageP)) (s : PkgSlice) :
    ∀ us ret e, (∀ u ∈ us, u ∈ s.uses) →
    (∀ ext h, lookupKey ret ext = some h → providerOf lib s ext h) →
    allHandlersAux lib s.pkg.name us ret = .error e →
    (∃ n, e = .notAvailable n) ∨
    (∃ ext h0 u pkg h1, e = .conflict s.pkg.name h0.pkgName pkg.name ext ∧
      providerOf lib s ext h0 ∧ u ∈ s.uses ∧
      lookupKey lib (baseOf u.spec) = some pkg ∧ (ext, h1) ∈ pkg.extensions ∧
      h0.hid ≠ h1.hid) := by
  intro us
  induction us with
  | nil =>
    intro ret e _ _ hbad
    exact Except.noConfusion hbad
  | cons u rest ih =>
    intro ret e hus Hret hbad
    unfold allHandlersAux at hbad
    cases hlg : libGet lib (baseOf u.spec) with
    | error e0 =>
      rw [hlg] at hbad
      have he : Except.error (ε := AHErr) (α := List (String × Handler)) e0 =
          Except.error e := hbad
      injection he with he
      subst he
      unfold libGet at hlg
      cases hlk : lookupKey lib (baseOf u.spec) with
      | some q =>
        rw [hlk] at hlg
        exact Except.noConfusion hlg
      | none =>
        rw [hlk] at hlg
        injection hlg with hlg
        exact Or.inl ⟨baseOf u.spec, hlg.symm⟩
    | ok otherPkg =>
      rw [hlg, exceptBindOk] at hbad
      have hlk : lookupKey lib (baseOf u.spec) = some otherPkg :=
        (libGet_ok lib _ otherPkg).mp hlg
      have Hexts : ∀ p ∈ otherPkg.extensions, providerOf lib s p.1 p.2 :=
        fun p hp => Or.inr ⟨u, hus u (List.mem_cons_self _ _), otherPkg, hlk, hp⟩
      cases hmg : mergeExts s.pkg.name otherPkg.name otherPkg.extensions ret with
      | error e1 =>
        rw [hmg] at hbad
        have he : Except.error (ε := AHErr) (α := List (String × Handler)) e1 =
            Except.error e := hbad
        injection he with he
        subst he
        obtain ⟨ext, h0, h1, hshape, hR, hmem, hne⟩ :=
          mergeExts_error_shape s.pkg.name otherPkg.name (providerOf lib s)
            otherPkg.extensions ret e1 Hexts Hret hmg
        exact Or.inr ⟨ext, h0, u, otherPkg, h1, hshape, hR,
          hus u (List.mem_cons_self _ _), hlk, hmem, hne⟩
      | ok ret1 =>
        rw [hmg, exceptBindOk] at hbad
        have Hret1 := mergeExts_sound s.pkg.name otherPkg.name
          (providerOf lib s) otherPkg.extensions ret ret1 Hexts Hret hmg
        exact ih ret1 e (fun v hv => hus v (List.mem_cons_of_mem _ hv)) Hret1 hbad

theorem allHandlers_provider_lookup (lib : List (String × PackageP))
    (s : PkgSlice) (hnodup : (s.pkg.extensions.map Prod.fst).Nodup)
    (m : List (String × Handler)) (hok : allHandlers lib s = .ok m)
    (ext : String) (h : Handler) (hp : providerOf lib s ext h) :
    ∃ h', lookupKey m ext = some h' ∧ h'.hid = h.hid := by
  obtain ⟨ca, cb⟩ := allHandlersAux_complete lib s.pkg.name s.uses
    (extendMap [] s.pkg.extensions) m hok
  rcases hp with hown | ⟨u, hu, pkg, hpkg, hmem⟩
  · exact ca ext h (extendMap_nodup_lookup s.pkg.extensions [] hnodup (ext, h) hown)
  · exact cb u hu pkg hpkg (ext, h) hmem

/-- C6: computing a slice's effective handler map via `_allHandlers` is an
unconditional fatal error exactly when two distinct handlers (different
function identities) are provided for one extension among the slice's own
package and its immediate `uses` entries' base packages: (i) a successful
map implies that all providers of any extension share one handler identity
(so registering the identical handler twice is not a conflict); (ii) if
every use resolves and all providers agree per extension, the computation
succeeds; and (iii) every non-resolution failure is a conflict error naming
the including package, both providing packages, and the extension in its
rendered message. -/
theorem c6_extension_conflict_fatal (lib : List (String × PackageP))
    (s : PkgSlice) (hnodup : (s.pkg.extensions.map Prod.fst).Nodup) :
    (∀ m, allHandlers lib s = .ok m →
      ∀ ext h1 h2, providerOf lib s ext h1 → providerOf lib s ext h2 →
        h1.hid = h2.hid) ∧
    ((∀ u ∈ s.uses, ∃ pkg, lookupKey lib (baseOf u.spec) = some pkg) →
      (∀ ext h1 h2, providerOf lib s ext h1 → providerOf lib s ext h2 →
        h1.hid = h2.hid) →
      ∃ m, allHandlers lib s = .ok m) ∧
    (∀ e, allHandlers lib s = .error e →
      (∃ n, e = .notAvailable n) ∨
      (∃ ext h0 u pkg h1, e = .conflict s.pkg.name h0.pkgName pkg.name ext ∧
        providerOf lib s ext h0 ∧ u ∈ s.uses ∧
        lookupKey lib (baseOf u.spec) = some pkg ∧ (ext, h1) ∈ pkg.extensions ∧
        h0.hid ≠ h1.hid ∧
        e.render = "Conflict: two packages included in " ++ orYourApp s.pkg.name ++
          ", " ++ orYourApp h0.pkgName ++ " and " ++ orYourApp pkg.name ++
          ", are both trying to handle ." ++ ext)) := by
  have Hinit : ∀ ext h, lookupKey (extendMap [] s.pkg.extensions) ext = some h →
      providerOf lib s ext h := by
    intro ext h hl
    rcases extendMap_mem s.pkg.extensions [] ext h hl with hm | hm
    · exact Or.inl hm
    · exact Option.noConfusion hm
  refine ⟨?_, ?_, ?_⟩
  · intro m hok ext h1 h2 hp1 hp2
    obtain ⟨h1', hl1, hh1⟩ := allHandlers_provider_lookup lib s hnodup m hok ext h1 hp1
    obtain ⟨h2', hl2, hh2⟩ := allHandlers_provider_lookup lib s hnodup m hok ext h2 hp2
    rw [hl1] at hl2
    injection hl2 with hl2
    rw [← hh1, ← hh2, hl2]
  · intro hres hfun
    exact allHandlersAux_noError lib s hfun s.uses (extendMap [] s.pkg.extensions)
      (fun u hu => hu) hres Hinit
  · intro e hbad
    rcases allHandlersAux_error lib s s.uses (extendMap [] s.pkg.extensions) e
        (fun u hu => hu) Hinit hbad with hna | hcf
    · exact Or.inl hna
    · obtain ⟨ext, h0, u, pkg, h1, hshape, hR, hu, hlk, hmem, hne⟩ := hcf
      refine Or.inr ⟨ext, h0, u, pkg, h1, hshape, hR, hu, hlk, hmem, hne, ?_⟩
      rw [hshape]
      rfl

theorem c6_extension_conflict_fatal_witness :
    (∃ n, cErrC6 = AHErr.notAvailable n) ∨
    (∃ ext h0 u pkg h1, cErrC6 = .conflict sC6.pkg.name h0.pkgName pkg.name ext ∧
      providerOf libC6 sC6 ext h0 ∧ u ∈ sC6.uses ∧
      lookupKey libC6 (baseOf u.spec) = some pkg ∧ (ext, h1) ∈ pkg.extensions ∧
      h0.hid ≠ h1.hid ∧
      cErrC6.render = "Conflict: two packages included in " ++ orYourApp sC6.pkg.name ++
        ", " ++ orYourApp h0.pkgName ++ " and " ++ orYourApp pkg.name ++
        ", are both trying to handle ." ++ ext) :=
  (c6_extension_conflict_fatal libC6 sC6 (by simp [appPkgC6, sC6])).2.2 cErrC6 rfl

theorem minifyCollectJs_isSome :
    ∀ us (b : BundleFiles) r, minifyCollectJs us b = .ok r →
      ∀ q ∈ us, (lookupKey b.filesClient q).isSome := by
  intro us
  induction us with
  | nil => exact fun b r _ q hq => absurd hq (List.not_mem_nil q)
  | cons p rest ih =>
    intro b r hok q hq
    unfold minifyCollectJs at hok
    cases hlk : lookupKey b.filesClient p with
    | none =>
      rw [hlk] at hok
      exact Except.noConfusion hok
    | some c =>
      simp only [hlk] at hok
      rcases List.mem_cons.mp hq with heq | hmem
      · subst heq
        rw [hlk]
        rfl
      · cases hrec : minifyCollectJs rest
            { b with filesClient := delKey b.filesClient p } with
        | error e =>
          rw [hrec] at hok
          exact Except.noConfusion hok
        | ok r1 =>
          have hq1 := ih _ r1 hrec q hmem
          rw [show ({ b with filesClient := delKey b.filesClient p } :
              BundleFiles).filesClient = delKey b.filesClient p from rfl,
            lookupKey_delKey] at hq1
          by_cases hqp : q = p
          · rw [if_pos hqp] at hq1
            exact absurd hq1 (by simp)
          · rw [if_neg hqp] at hq1
            exact hq1

theorem minifyCollectJs_spec :
    ∀ us (b : BundleFiles) parts b', minifyCollectJs us b = .ok (parts, b') →
      parts = us.map (fun p => (lookupKey b.filesClient p).getD "") ∧
      (∀ q, lookupKey b'.filesClient q =
        if us.contains q then none else lookupKey b.filesClient q) ∧
      b'.jsClient = b.jsClient ∧ b'.css = b.css ∧
      b'.filesClientCacheable = b.filesClientCacheable ∧
      b'.manifest = b.manifest := by
  intro us
  induction us with
  | nil =>
    intro b parts b' hok
    injection hok with h
    injection h with h1 h2
    subst h1
    subst h2
    exact ⟨rfl, fun q => rfl, rfl, rfl, rfl, rfl⟩
  | cons p rest ih =>
    intro b parts b' hok
    unfold minifyCollectJs at hok
    cases hlk : lookupKey b.filesClient p with
    | none =>
      rw [hlk] at hok
      exact Except.noConfusion hok
    | some c =>
      simp only [hlk] at hok
      cases hrec : minifyCollectJs rest
          { b with filesClient := delKey b.filesClient p } with
      | error e =>
        rw [hrec] at hok
        exact Except.noConfusion hok
      | ok r1 =>
        obtain ⟨tail, b2⟩ := r1
        rw [hrec] at hok
        injection hok with h
        injection h with h1 h2
        subst h1
        subst h2
        obtain ⟨ihparts, ihchar, ihjs, ihcss, ihcache, ihman⟩ := ih _ tail b2 hrec
        have hsome := minifyCollectJs_isSome rest _ (tail, b2) hrec
        refine ⟨?_, ?_, ihjs, ihcss, ihcache, ihman⟩
        · rw [List.map_cons, hlk, ihparts]
          show c :: _ = Option.getD (some c) "" :: _
          congr 1
          apply List.map_congr_left
          intro q hq
          have hq1 := hsome q hq
          rw [show ({ b with filesClient := delKey b.filesClient p } :
              BundleFiles).filesClient = delKey b.filesClient p from rfl] at hq1 ⊢
          rw [lookupKey_delKey] at hq1 ⊢
          by_cases hqp : q = p
          · rw [if_pos hqp] at hq1
            exact absurd hq1 (by simp)
          · rw [if_neg hqp]
        · intro q
          rw [ihchar q,
            show ({ b with filesClient := delKey b.filesClient p } :
              BundleFiles).filesClient = delKey b.filesClient p from rfl,
            lookupKey_delKey]
          by_cases hq : q ∈ rest
          · simp [List.contains_cons, hq]
          · by_cases hqp : q = p
            · simp [List.contains_cons, hqp, hq]
            · simp [List.contains_cons, hqp, hq,
                fun (h : p = q) => hqp h.symm]

theorem minifyCollectCss_char :
    ∀ us acc (b : BundleFiles) r0 b', minifyCollectCss us acc b = .ok (r0, b') →
      (∀ q, lookupKey b'.filesClient q =
        if us.contains q then none else lookupKey b.filesClient q) ∧
      b'.jsClient = b.jsClient ∧ b'.css = b.css ∧
      b'.filesClientCacheable = b.filesClientCacheable ∧
      b'.manifest = b.manifest := by
  intro us
  induction us with
  | nil =>
    intro acc b r0 b' hok
    injection hok with h
    injection h with h1 h2
    subst h2
    exact ⟨fun q => rfl, rfl, rfl, rfl, rfl⟩
  | cons p rest ih =>
    intro acc b r0 b' hok
    unfold minifyCollectCss at hok
    cases hlk : lookupKey b.filesClient p with
    | none =>
      rw [hlk] at hok
      exact Except.noConfusion hok
    | some c =>
      simp only [hlk] at hok
      obtain ⟨ihchar, ihjs, ihcss, ihcache, ihman⟩ := ih _ _ r0 b' hok
      refine ⟨?_, ihjs, ihcss, ihcache, ihman⟩
      intro q
      rw [ihchar q,
        show ({ b with filesClient := delKey b.filesClient p } :
          BundleFiles).filesClient = delKey b.filesClient p from rfl,
        lookupKey_delKey]
      by_cases hq : q ∈ rest
      · simp [List.contains_cons, hq]
      · by_cases hqp : q = p
        · simp [List.contains_cons, hqp, hq]
        · simp [List.contains_cons, hqp, hq,
            fun (h : p = q) => hqp h.symm]

theorem jsName_ne_cssName (a b : String) :
    ("/" ++ a ++ "." ++ "js") ≠ ("/" ++ b ++ "." ++ "css") := by
  intro h
  have hd := congrArg String.data h
  simp only [String.data_append] at hd
  have hrev := congrArg List.reverse hd
  simp [List.reverse_append] at hrev

theorem minify_eq (sha1 minifyJs minifyCss : String → String) (b : BundleFiles) :
    minify sha1 minifyJs minifyCss b =
      match minifyCollectJs b.jsClient b with
      | .error e => .error e
      | .ok (parts, b1) =>
        let b2 := minifyAddFile sha1 "js"
          (minifyJs (String.intercalate "\n;\n" parts)) { b1 with jsClient := [] }
        match minifyCollectCss b2.css "" b2 with
        | .error e => .error e
        | .ok (cssConcat, b4) =>
          .ok (minifyAddFile sha1 "css" (minifyCss cssConcat) { b4 with css := [] }) := by
  unfold minify
  cases minifyCollectJs b.jsClient b with
  | error e => rfl
  | ok r1 =>
    obtain ⟨parts, b1⟩ := r1
    rw [exceptBindOk]
    dsimp only
    cases minifyCollectCss
        (minifyAddFile sha1 "js" (minifyJs (String.intercalate "\n;\n" parts))
          { b1 with jsClient := [] }).css ""
        (minifyAddFile sha1 "js" (minifyJs (String.intercalate "\n;\n" parts))
          { b1 with jsClient := [] }) with
    | error e => rfl
    | ok r2 =>
      obtain ⟨cssConcat, b4⟩ := r2
      rfl

/-- C8 (amended): `Bundle.minify` always produces exactly one additional
cacheable js manifest entry — also when the client js list is empty — whose
stored filename and url are `/<h>.js` for `h` the sha1 of the minified
concatenation of the staged inputs joined with `"\n;\n"`; the concatenated
inputs are removed from the staged client file map and the js load list is
cleared. -/
theorem c8_minify_single_cacheable_entry
    (sha1 minifyJs minifyCss : String → String) (b b' : BundleFiles)
    (h : minify sha1 minifyJs minifyCss b = .ok b') :
    b'.manifest.filter jsCacheablePred =
      b.manifest.filter jsCacheablePred ++
      [{ mpath := "static_cacheable" ++ minifiedJsName sha1 minifyJs b
         mwhere := "client"
         mtype := some "js"
         cacheable := some true
         url := some (minifiedJsName sha1 minifyJs b)
         size := some (minifyJs (jsCombined b)).length
         hash := sha1 (minifyJs (jsCombined b)) }] ∧
    lookupKey b'.filesClientCacheable (minifiedJsName sha1 minifyJs b) =
      some (minifyJs (jsCombined b)) ∧
    b'.jsClient = [] ∧
    (∀ p ∈ b.jsClient, lookupKey b'.filesClient p = none) := by
  rw [minify_eq] at h
  cases hjs : minifyCollectJs b.jsClient b with
  | error e =>
    rw [hjs] at h
    exact Except.noConfusion h
  | ok r1 =>
    obtain ⟨parts, b1⟩ := r1
    simp only [hjs] at h
    obtain ⟨hparts, hchar, hjsCl, hcss0, hcache, hman⟩ :=
      minifyCollectJs_spec b.jsClient b parts b1 hjs
    have hcombined : jsCombined b = String.intercalate "\n;\n" parts := by
      rw [jsCombined, hparts]
    cases hcssrun : minifyCollectCss
        (minifyAddFile sha1 "js" (minifyJs (String.intercalate "\n;\n" parts))
          { b1 with jsClient := [] }).css ""
        (minifyAddFile sha1 "js" (minifyJs (String.intercalate "\n;\n" parts))
          { b1 with jsClient := [] }) with
    | error e =>
      rw [hcssrun] at h
      exact Except.noConfusion h
    | ok r2 =>
      obtain ⟨cssConcat, b4⟩ := r2
      simp only [hcssrun] at h
      injection h with h
      obtain ⟨cchar, cjs, ccss, ccache, cman⟩ :=
        minifyCollectCss_char _ "" _ cssConcat b4 hcssrun
      subst h
      simp only [minifiedJsName, hcombined]
      refine ⟨?_, ?_, ?_, ?_⟩
      · show (b4.manifest ++
            [({ mpath := "static_cacheable" ++ ("/" ++ sha1 (minifyCss cssConcat) ++ "." ++ "css")
                mwhere := "client"
                mtype := some "css"
                cacheable := some true
                url := some ("/" ++ sha1 (minifyCss cssConcat) ++ "." ++ "css")
                size := some (minifyCss cssConcat).length
                hash := sha1 (minifyCss cssConcat) } : ManifestEntry)]).filter jsCacheablePred = _
        rw [cman]
        show ((b1.manifest ++
            [({ mpath := "static_cacheable" ++
                  ("/" ++ sha1 (minifyJs (String.intercalate "\n;\n" parts)) ++ "." ++ "js")
                mwhere := "client"
                mtype := some "js"
                cacheable := some true
                url := some ("/" ++ sha1 (minifyJs (String.intercalate "\n;\n" parts)) ++ "." ++ "js")
                size := some (minifyJs (String.intercalate "\n;\n" parts)).length
                hash := sha1 (minifyJs (String.intercalate "\n;\n" parts)) } : ManifestEntry)]) ++ _).filter
            jsCacheablePred = _
        rw [hman, List.filter_append, List.filter_append]
        simp [jsCacheablePred]
      · show lookupKey (setKey b4.filesClientCacheable
            ("/" ++ sha1 (minifyCss cssConcat) ++ "." ++ "css") (minifyCss cssConcat))
            ("/" ++ sha1 (minifyJs (String.intercalate "\n;\n" parts)) ++ "." ++ "js") =
          some (minifyJs (String.intercalate "\n;\n" parts))
        rw [lookupKey_setKey,
          if_neg (fun hh => jsName_ne_cssName
            (sha1 (minifyJs (String.intercalate "\n;\n" parts)))
            (sha1 (minifyCss cssConcat)) hh.symm)]
        rw [ccache]
        show lookupKey (setKey b1.filesClientCacheable
            ("/" ++ sha1 (minifyJs (String.intercalate "\n;\n" parts)) ++ "." ++ "js")
            (minifyJs (String.intercalate "\n;\n" parts)))
            ("/" ++ sha1 (minifyJs (String.intercalate "\n;\n" parts)) ++ "." ++ "js") =
          some (minifyJs (String.intercalate "\n;\n" parts))
        rw [lookupKey_setKey, if_pos rfl]
      · show b4.jsClient = []
        rw [cjs]
        rfl
      · intro p hp
        show lookupKey b4.filesClient p = none
        rw [cchar p]
        have hfc2 : lookupKey b1.filesClient p = none := by
          rw [hchar p, if_pos (List.elem_eq_true_of_mem hp)]
        by_cases hc : ((minifyAddFile sha1 "js"
            (minifyJs (String.intercalate "\n;\n" parts))
            { b1 with jsClient := [] }).css).contains p = true
        · rw [if_pos hc]
        · rw [if_neg hc]
          exact hfc2

/-- C8, counterexample to the claim as stated: minifying an already-empty
client js list still produces exactly one cacheable js manifest entry (for
the minified empty concatenation), not zero. -/
theorem c8_minify_empty_counterexample :
    (minify sha1C8 minJsC8 minCssC8 emptyBundleC8).map
      (fun b => b.manifest.filter jsCacheablePred) =
    .ok [{ mpath := "static_cacheable/H.js", mwhere := "client",
           mtype := some "js", cacheable := some true, url := some "/H.js",
           size := some 0, hash := "H" }] := by
  rfl

theorem c8_minify_single_cacheable_entry_witness :
    bC8'.manifest.filter jsCacheablePred =
      bC8.manifest.filter jsCacheablePred ++
      [{ mpath := "static_cacheable" ++ minifiedJsName sha1C8 minJsC8 bC8
         mwhere := "client"
         mtype := some "js"
         cacheable := some true
         url := some (minifiedJsName sha1C8 minJsC8 bC8)
         size := some (minJsC8 (jsCombined bC8)).length
         hash := sha1C8 (minJsC8 (jsCombined bC8)) }] ∧
    lookupKey bC8'.filesClientCacheable (minifiedJsName sha1C8 minJsC8 bC8) =
      some (minJsC8 (jsCombined bC8)) ∧
    bC8'.jsClient = [] ∧
    lookupKey bC8'.filesClient "/a.js" = none := by
  have h : minify sha1C8 minJsC8 minCssC8 bC8 = .ok bC8' := rfl
  have hm := c8_minify_single_cacheable_entry sha1C8 minJsC8 minCssC8 bC8 bC8' h
  exact ⟨hm.1, hm.2.1, hm.2.2.1, hm.2.2.2 "/a.js" (by decide)⟩

theorem GoodL_push (lib : List (String × Pkg))
    (ix : List ((Role × Arch × Nat) × BSlice)) (l : List BSlice) (A : BSlice)
    (hg : GoodL lib ix l)
    (hdeps : ∀ n ∈ A.pkg.usesAt A.role A.arch, OrdCond A n →
      DepIn lib ix A n l) :
    GoodL lib ix (l ++ [A]) := by
  intro j A' hget n hn hcond
  by_cases hj : j < l.length
  · rw [List.get?_append hj] at hget
    obtain ⟨P, B, i, hP, hB, hij, hgi⟩ := hg j A' hget n hn hcond
    have hi : i < l.length := lt_trans hij hj
    exact ⟨P, B, i, hP, hB, hij, by rw [List.get?_append hi]; exact hgi⟩
  · have hj2 : j = l.length := by
      have hlen : j < (l ++ [A]).length := (List.get?_eq_some.mp hget).1
      rw [List.length_append, List.length_singleton] at hlen
      omega
    subst hj2
    rw [List.get?_concat_length] at hget
    injection hget with hget
    subst hget
    obtain ⟨P, B, hP, hB, hmem⟩ := hdeps n hn hcond
    obtain ⟨i, hgi⟩ := List.mem_iff_get?.mp hmem
    have hi : i < l.length := (List.get?_eq_some.mp hgi).1
    exact ⟨P, B, i, hP, hB, hi, by rw [List.get?_append hi]; exact hgi⟩

theorem loadUsesF_spec (lib : List (String × Pkg))
    (ix : List ((Role × Arch × Nat) × BSlice))
    (loadS : BSlice → LoadSt → Except BErr LoadSt)
    (hload : ∀ slice st st', WfIx ix → LoadInv lib ix st →
      lookupKey ix (skey slice) = some slice →
      loadS slice st = .ok st' →
      LoadPost lib ix st st' ∧ skey slice ∈ st'.done) :
    ∀ ns slice st st', WfIx ix → LoadInv lib ix st →
      loadUsesF lib ix loadS slice ns st = .ok st' →
      LoadPost lib ix st st' ∧
      (∀ n ∈ ns, OrdCond slice n → DepIn lib ix slice n st'.slices) := by
  intro ns
  induction ns with
  | nil =>
    intro slice st st' _ hinv hok
    injection hok with h
    subst h
    exact ⟨⟨hinv, ⟨[], (List.append_nil _).symm⟩, fun k hk => hk, fun s hs => hs⟩,
      fun n hn => absurd hn (List.not_mem_nil n)⟩
  | cons n rest ih =>
    intro slice st st' hwf hinv hok
    unfold loadUsesF at hok
    by_cases hskip : (slice.pkg.name.isSome && slice.pkg.isUnordered n) = true
    · rw [if_pos hskip] at hok
      obtain ⟨hpost, hdeps⟩ := ih slice st st' hwf hinv hok
      refine ⟨hpost, ?_⟩
      intro m hm hcond
      rcases List.mem_cons.mp hm with heq | hmem
      · subst heq
        exact absurd (by simpa using hskip) hcond
      · exact hdeps m hmem hcond
    · rw [if_neg hskip] at hok
      cases hgp : getPackage lib (.byName n) with
      | error e =>
        rw [hgp] at hok
        exact Except.noConfusion hok
      | ok usedPkg =>
        rw [hgp, exceptBindOk] at hok
        cases hlk : lookupKey ix (Role.use, slice.arch, usedPkg.id) with
        | none =>
          rw [hlk] at hok
          exact Except.noConfusion hok
        | some usedSlice =>
          simp only [hlk] at hok
          by_cases hstack : st.onStack.contains (skey usedSlice) = true
          · rw [if_pos hstack] at hok
            exact Except.noConfusion hok
          · rw [if_neg hstack] at hok
            cases hrec : loadS usedSlice
                { st with onStack := st.onStack ++ [skey usedSlice] } with
            | error e =>
              rw [hrec] at hok
              exact Except.noConfusion hok
            | ok st1 =>
              rw [hrec, exceptBindOk] at hok
              have hkey : skey usedSlice = (Role.use, slice.arch, usedPkg.id) :=
                hwf _ usedSlice hlk
              have hlk2 : lookupKey ix (skey usedSlice) = some usedSlice := by
                rw [hkey]
                exact hlk
              have hinv1 : LoadInv lib ix
                  { st with onStack := st.onStack ++ [skey usedSlice] } := by
                exact ⟨hinv.1, fun k B h1 h2 => hinv.2 k B h1 h2⟩
              obtain ⟨⟨hinv1', hpre1, hdone1, hrem1⟩, hdone⟩ :=
                hload usedSlice _ st1 hwf hinv1 hlk2 hrec
              have hinv2 : LoadInv lib ix
                  { st1 with onStack :=
                    st1.onStack.filter (fun k => !(k == skey usedSlice)) } :=
                ⟨hinv1'.1, fun k B h1 h2 => hinv1'.2 k B h1 h2⟩
              obtain ⟨⟨hinv', hpre2, hdone2, hrem2⟩, hdeps⟩ :=
                ih slice _ st' hwf hinv2 hok
              have husedMem : usedSlice ∈ st1.slices :=
                hinv1'.2 (skey usedSlice) usedSlice hlk2 hdone
              obtain ⟨l2, hl2⟩ := hpre1
              obtain ⟨l3, hl3⟩ := hpre2
              refine ⟨⟨hinv', ?_, ?_, ?_⟩, ?_⟩
              · exact ⟨l2 ++ l3, by rw [hl3, hl2]; simp [List.append_assoc]⟩
              · intro k hk
                exact hdone2 k (hdone1 k hk)
              · intro s hs
                exact hrem1 s (hrem2 s hs)
              · intro m hm hcond
                rcases List.mem_cons.mp hm with heq | hmem
                · subst heq
                  refine ⟨usedPkg, usedSlice, hgp, hlk, ?_⟩
                  rw [hl3]
                  exact List.mem_append_left _ husedMem
                · exact hdeps m hmem hcond

theorem loadSlice_spec (lib : List (String × Pkg))
    (ix : List ((Role × Arch × Nat) × BSlice)) :
    ∀ fuel slice st st', WfIx ix → LoadInv lib ix st →
      lookupKey ix (skey slice) = some slice →
      loadSlice lib ix fuel slice st = .ok st' →
      LoadPost lib ix st st' ∧ skey slice ∈ st'.done := by
  intro fuel
  induction fuel with
  | zero =>
    intro slice st st' _ _ _ hok
    exact Except.noConfusion hok
  | succ fuel ih =>
    intro slice st st' hwf hinv hself hok
    unfold loadSlice at hok
    by_cases hdone : st.done.contains (skey slice) = true
    · rw [if_pos hdone] at hok
      injection hok with h
      subst h
      exact ⟨⟨hinv, ⟨[], (List.append_nil _).symm⟩, fun k hk => hk, fun s hs => hs⟩,
        List.elem_iff.mp hdone⟩
    · rw [if_neg hdone] at hok
      cases hu : loadUsesF lib ix (loadSlice lib ix fuel) slice
          (slice.pkg.usesAt slice.role slice.arch) st with
      | error e =>
        rw [hu] at hok
        exact Except.noConfusion hok
      | ok stU =>
        rw [hu, exceptBindOk] at hok
        injection hok with h
        obtain ⟨⟨hinvU, hpreU, hdoneU, hremU⟩, hdeps⟩ :=
          loadUsesF_spec lib ix (loadSlice lib ix fuel) ih _ slice st stU hwf hinv hu
        obtain ⟨l2, hl2⟩ := hpreU
        subst h
        refine ⟨⟨⟨?_, ?_⟩, ?_, ?_, ?_⟩, ?_⟩
        · exact GoodL_push lib ix stU.slices slice hinvU.1 hdeps
        · intro k B h1 h2
          rcases List.mem_append.mp h2 with hk | hk
          · exact List.mem_append_left _ (hinvU.2 k B h1 hk)
          · have : k = skey slice := by
              rcases List.mem_singleton.mp hk with h
              exact h
            subst this
            rw [hself] at h1
            injection h1 with h1
            subst h1
            exact List.mem_append_right _ (List.mem_singleton_self _)
        · exact ⟨l2 ++ [slice], by rw [hl2]; simp [List.append_assoc]⟩
        · intro k hk
          exact List.mem_append_left _ (hdoneU k hk)
        · intro s hs
          exact hremU s (List.mem_of_mem_filter hs)
        · exact List.mem_append_right _ (List.mem_singleton_self _)

theorem loadLoop_spec (lib : List (String × Pkg))
    (ix : List ((Role × Arch × Nat) × BSlice)) :
    ∀ fuel st st', WfIx ix → LoadInv lib ix st → RemOk ix st →
      loadLoop lib ix fuel st = .ok st' → GoodL lib ix st'.slices := by
  intro fuel
  induction fuel with
  | zero =>
    intro st st' _ _ _ hok
    exact Except.noConfusion hok
  | succ fuel ih =>
    intro st st' hwf hinv hrem hok
    unfold loadLoop at hok
    cases hr : st.remaining with
    | nil =>
      simp only [hr] at hok
      injection hok with h
      subst h
      exact hinv.1
    | cons first rest =>
      simp only [hr] at hok
      cases hl : loadSlice lib ix fuel first st with
      | error e =>
        rw [hl] at hok
        exact Except.noConfusion hok
      | ok st1 =>
        rw [hl, exceptBindOk] at hok
        have hfirst : lookupKey ix (skey first) = some first :=
          hrem first (by rw [hr]; exact List.mem_cons_self _ _)
        obtain ⟨⟨hinv1, _, _, hrem1⟩, _⟩ :=
          loadSlice_spec lib ix fuel first st st1 hwf hinv hfirst hl
        exact ih st1 st' hwf hinv1
          (fun s hs => hrem s (hrem1 s hs)) hok

theorem exceptFold_preserve {α σ : Type} (P : σ → Prop)
    (f : σ → α → Except BErr σ)
    (hf : ∀ s a s', P s → f s a = .ok s' → P s') :
    ∀ (l : List α) (s s' : σ), P s → l.foldlM f s = .ok s' → P s' := by
  intro l
  induction l with
  | nil =>
    intro s s' hP hok
    injection hok with h
    subst h
    exact hP
  | cons a rest ih =>
    intro s s' hP hok
    rw [List.foldlM_cons] at hok
    cases hfa : f s a with
    | error e =>
      rw [hfa] at hok
      exact Except.noConfusion hok
    | ok s1 =>
      rw [hfa, exceptBindOk] at hok
      exact ih s1 s' (hf s a s1 hP hfa) hok

theorem addSliceListF_wf (lib : List (String × Pkg))
    (addS : Pkg → Role → Arch → Phase1St → Except BErr Phase1St)
    (haddS : ∀ pkg role arch st st', Wf1 st → addS pkg role arch st = .ok st' →
      Wf1 st') :
    ∀ ns arch st st', Wf1 st → addSliceListF lib addS ns arch st = .ok st' →
      Wf1 st' := by
  intro ns
  induction ns with
  | nil =>
    intro arch st st' hP hok
    injection hok with h
    subst h
    exact hP
  | cons n rest ih =>
    intro arch st st' hP hok
    unfold addSliceListF at hok
    cases hgp : getPackage lib (.byName n) with
    | error e =>
      rw [hgp] at hok
      exact Except.noConfusion hok
    | ok usedPkg =>
      rw [hgp, exceptBindOk] at hok
      cases hadd : addS usedPkg .use arch st with
      | error e =>
        rw [hadd] at hok
        exact Except.noConfusion hok
      | ok st1 =>
        rw [hadd, exceptBindOk] at hok
        exact ih arch st1 st' (haddS _ _ _ _ _ hP hadd) hok

theorem addSlice_wf (lib : List (String × Pkg)) :
    ∀ fuel pkg role arch st st', Wf1 st →
      addSlice lib fuel pkg role arch st = .ok st' → Wf1 st' := by
  intro fuel
  induction fuel with
  | zero =>
    intro pkg role arch st st' _ hok
    exact Except.noConfusion hok
  | succ fuel ih =>
    intro pkg role arch st st' hP hok
    unfold addSlice at hok
    cases hlk : lookupKey st.index (role, arch, pkg.id) with
    | some s =>
      simp only [hlk] at hok
      injection hok with h
      subst h
      exact hP
    | none =>
      simp only [hlk] at hok
      have hP1 : Wf1 ⟨setKey st.index (role, arch, pkg.id) ⟨pkg, role, arch⟩,
          st.order ++ [⟨pkg, role, arch⟩]⟩ := by
        constructor
        · intro k B hB
          rw [show (⟨setKey st.index (role, arch, pkg.id) ⟨pkg, role, arch⟩,
              st.order ++ [⟨pkg, role, arch⟩]⟩ : Phase1St).index =
              setKey st.index (role, arch, pkg.id) ⟨pkg, role, arch⟩ from rfl,
            lookupKey_setKey] at hB
          by_cases hk : (role, arch, pkg.id) = k
          · rw [if_pos hk] at hB
            injection hB with hB
            subst hB
            exact hk
          · rw [if_neg hk] at hB
            exact hP.1 k B hB
        · intro s hs
          rcases List.mem_append.mp hs with hold | hnew
          · have hknew : ¬ (role, arch, pkg.id) = skey s := by
              intro hk
              have := hP.2 s hold
              rw [← hk, hlk] at this
              exact Option.noConfusion this
            show lookupKey (setKey st.index (role, arch, pkg.id)
              ⟨pkg, role, arch⟩) (skey s) = some s
            rw [lookupKey_setKey, if_neg hknew]
            exact hP.2 s hold
          · rcases List.mem_singleton.mp hnew with h
            subst h
            show lookupKey (setKey st.index (role, arch, pkg.id)
              ⟨pkg, role, arch⟩) (skey ⟨pkg, role, arch⟩) = some ⟨pkg, role, arch⟩
            rw [lookupKey_setKey,
              if_pos (show (role, arch, pkg.id) =
                skey (⟨pkg, role, arch⟩ : BSlice) from rfl)]
      exact addSliceListF_wf lib (addSlice lib fuel) ih
        (pkg.usesAt role arch) arch _ st' hP1 hok

theorem addRoots_wf (lib : List (String × Pkg)) (fuel : Nat)
    (contents : Contents) (p1 : Phase1St)
    (h : addRoots lib fuel contents = .ok p1) : Wf1 p1 := by
  refine exceptFold_preserve Wf1 _ ?_ contents ⟨[], []⟩ p1 ⟨?_, ?_⟩ h
  · intro st entry st' hP hok
    refine exceptFold_preserve Wf1 _ ?_ entry.2.2 st st' hP hok
    intro s ref s' hPs hoks
    cases hgp : getPackage lib ref with
    | error e =>
      rw [hgp] at hoks
      exact Except.noConfusion hoks
    | ok pkg =>
      rw [hgp, exceptBindOk] at hoks
      exact addSlice_wf lib fuel pkg entry.1 entry.2.1 s s' hPs hoks
  · intro k B hB
    exact Option.noConfusion hB
  · intro s hs
    exact absurd hs (List.not_mem_nil s)

/-- C1: whenever `determineLoadOrder` succeeds, every slice's uses edge that
is not marked unordered resolves to a package whose `use` slice for the same
where appears strictly earlier in `Bundle.slices`; and an edge marked
unordered imposes no load-order constraint — in the concrete two-package
cycle where `a` uses `b` with `b` marked unordered on `a`'s side and `b`
uses `a` ordered, the sort succeeds and places `a` (the user) first. -/
theorem c1_ordered_uses_precede (lib : List (String × Pkg))
    (contents : Contents) (fuel : Nat) (st : LoadSt)
    (h : determineLoadOrder lib contents fuel = .ok st) :
    (∀ j A, st.slices.get? j = some A →
      ∀ n ∈ A.pkg.usesAt A.role A.arch, A.pkg.isUnordered n = false →
      ∃ P, getPackage lib (.byName n) = .ok P ∧
        ∃ i B, i < j ∧ st.slices.get? i = some B ∧
          B.role = Role.use ∧ B.arch = A.arch ∧ B.pkg.id = P.id) ∧
    (determineLoadOrder c1LibU c1Contents 10).map
      (fun s => s.slices.map (fun x => x.pkg.id)) = .ok [1, 2] := by
  constructor
  · unfold determineLoadOrder at h
    cases hp1 : addRoots lib fuel contents with
    | error e =>
      rw [hp1] at h
      exact Except.noConfusion h
    | ok p1 =>
      rw [hp1, exceptBindOk] at h
      have hwf1 := addRoots_wf lib fuel contents p1 hp1
      have hgood : GoodL lib p1.index st.slices := by
        refine loadLoop_spec lib p1.index fuel ⟨[], [], [], p1.order⟩ st
          hwf1.1 ⟨?_, ?_⟩ ?_ h
        · intro j A hget
          exact absurd hget (by simp)
        · intro k B _ hk
          exact absurd hk (List.not_mem_nil k)
        · intro s hs
          exact hwf1.2 s hs
      intro j A hget n hn hunord
      have hcond : OrdCond A n := by
        intro hc
        rw [hunord] at hc
        exact Bool.noConfusion hc.2
      obtain ⟨P, B, i, hP, hB, hij, hgi⟩ := hgood j A hget n hn hcond
      have hkey : (B.role, B.arch, B.pkg.id) = (Role.use, A.arch, P.id) :=
        hwf1.1 _ B hB
      have hrole : B.role = Role.use := congrArg Prod.fst hkey
      have hrest := congrArg Prod.snd hkey
      have harch : B.arch = A.arch := congrArg Prod.fst hrest
      have hid : B.pkg.id = P.id := congrArg Prod.snd hrest
      exact ⟨P, hP, i, B, hij, hgi, hrole, harch, hid⟩
  · rfl

theorem c1_ordered_uses_precede_witness :
    ∃ P, getPackage c1LibT (PkgRef.byName "b") = .ok P ∧
      ∃ i B, i < 1 ∧ c1StT.slices.get? i = some B ∧
        B.role = Role.use ∧ B.arch = Arch.client ∧ B.pkg.id = P.id := by
  have h : determineLoadOrder c1LibT c1Contents 10 = .ok c1StT := by rfl
  exact (c1_ordered_uses_precede c1LibT c1Contents 10 c1StT h).1
    1 ⟨c1PkgA, Role.use, Arch.client⟩ (by rfl) "b" (by decide) (by decide)

theorem exceptBindErr {ε α β : Type} (e : ε) (f : α → Except ε β) :
    (Except.error e >>= f : Except ε β) = Except.error e := rfl

theorem getPackage_shape (lib : List (String × Pkg)) (ref : PkgRef)
    (e : BErr) (h : getPackage lib ref = .error e) : cycleShape e := by
  cases ref with
  | byObj p => exact Except.noConfusion h
  | byName n =>
    unfold getPackage at h
    cases hlk : lookupKey lib n with
    | some p =>
      simp only [hlk] at h
      exact Except.noConfusion h
    | none =>
      simp only [hlk] at h
      injection h with h
      subst h
      intro m hm
      exact BErr.noConfusion hm

theorem exceptFold_errShape {α σ : Type} (Q : BErr → Prop)
    (f : σ → α → Except BErr σ)
    (hf : ∀ s a e, f s a = .error e → Q e) :
    ∀ (l : List α) (s : σ) (e : BErr), l.foldlM f s = .error e → Q e := by
  intro l
  induction l with
  | nil =>
    intro s e h
    exact Except.noConfusion h
  | cons a rest ih =>
    intro s e h
    rw [List.foldlM_cons] at h
    cases hfa : f s a with
    | error e1 =>
      rw [hfa, exceptBindErr] at h
      injection h with h
      subst h
      exact hf s a e1 hfa
    | ok s1 =>
      rw [hfa, exceptBindOk] at h
      exact ih s1 e h

theorem addSliceListF_shape (lib : List (String × Pkg))
    (addS : Pkg → Role → Arch → Phase1St → Except BErr Phase1St)
    (haddS : ∀ pkg role arch st e, addS pkg role arch st = .error e →
      cycleShape e) :
    ∀ ns arch st e, addSliceListF lib addS ns arch st = .error e →
      cycleShape e := by
  intro ns
  induction ns with
  | nil =>
    intro arch st e h
    exact Except.noConfusion h
  | cons n rest ih =>
    intro arch st e h
    unfold addSliceListF at h
    cases hgp : getPackage lib (.byName n) with
    | error e1 =>
      rw [hgp, exceptBindErr] at h
      injection h with h
      subst h
      exact getPackage_shape lib (.byName n) e1 hgp
    | ok usedPkg =>
      rw [hgp, exceptBindOk] at h
      cases hadd : addS usedPkg .use arch st with
      | error e1 =>
        rw [hadd, exceptBindErr] at h
        injection h with h
        subst h
        exact haddS _ _ _ _ e1 hadd
      | ok st1 =>
        rw [hadd, exceptBindOk] at h
        exact ih arch st1 e h

theorem addSlice_shape (lib : List (String × Pkg)) :
    ∀ fuel pkg role arch st e, addSlice lib fuel pkg role arch st = .error e →
      cycleShape e := by
  intro fuel
  induction fuel with
  | zero =>
    intro pkg role arch st e h
    injection h with h
    subst h
    intro m hm
    exact BErr.noConfusion hm
  | succ fuel ih =>
    intro pkg role arch st e h
    unfold addSlice at h
    cases hlk : lookupKey st.index (role, arch, pkg.id) with
    | some s =>
      simp only [hlk] at h
      exact Except.noConfusion h
    | none =>
      simp only [hlk] at h
      exact addSliceListF_shape lib (addSlice lib fuel)
        (fun p r a s e1 he => ih p r a s e1 he)
        (pkg.usesAt role arch) arch _ e h

theorem addRoots_shape (lib : List (String × Pkg)) (fuel : Nat)
    (contents : Contents) (e : BErr)
    (h : addRoots lib fuel contents = .error e) : cycleShape e := by
  unfold addRoots at h
  refine exceptFold_errShape cycleShape _ ?_ contents (⟨[], []⟩ : Phase1St) e h
  intro st entry e1 h1
  refine exceptFold_errShape cycleShape _ ?_ entry.2.2 st e1 h1
  intro s ref e2 h2
  cases hgp : getPackage lib ref with
  | error e3 =>
    rw [hgp, exceptBindErr] at h2
    injection h2 with h2
    subst h2
    exact getPackage_shape lib ref e3 hgp
  | ok pkg =>
    rw [hgp, exceptBindOk] at h2
    exact addSlice_shape lib fuel pkg entry.1 entry.2.1 s e2 h2

theorem loadUsesF_shape (lib : List (String × Pkg))
    (ix : List ((Role × Arch × Nat) × BSlice))
    (loadS : BSlice → LoadSt → Except BErr LoadSt)
    (hload : ∀ s st e, loadS s st = .error e → cycleShape e)
    (slice : BSlice) :
    ∀ ns st e, loadUsesF lib ix loadS slice ns st = .error e →
      cycleShape e := by
  intro ns
  induction ns with
  | nil =>
    intro st e h
    exact Except.noConfusion h
  | cons n rest ih =>
    intro st e h
    unfold loadUsesF at h
    by_cases hu : (slice.pkg.name.isSome && slice.pkg.isUnordered n) = true
    · rw [if_pos hu] at h
      exact ih st e h
    · rw [if_neg hu] at h
      cases hgp : getPackage lib (.byName n) with
      | error e1 =>
        rw [hgp, exceptBindErr] at h
        injection h with h
        subst h
        exact getPackage_shape lib (.byName n) e1 hgp
      | ok usedPkg =>
        rw [hgp, exceptBindOk] at h
        cases hlk : lookupKey ix (Role.use, slice.arch, usedPkg.id) with
        | none =>
          simp only [hlk] at h
          injection h with h
          subst h
          intro m hm
          exact BErr.noConfusion hm
        | some usedSlice =>
          simp only [hlk] at h
          by_cases hst : st.onStack.contains (skey usedSlice) = true
          · rw [if_pos hst] at h
            injection h with h
            subst h
            intro m hm
            injection hm with hm
            subst hm
            exact ⟨jsName slice.pkg.name, jsName usedSlice.pkg.name, rfl⟩
          · rw [if_neg hst] at h
            cases hls : loadS usedSlice
                { st with onStack := st.onStack ++ [skey usedSlice] } with
            | error e1 =>
              rw [hls, exceptBindErr] at h
              injection h with h
              subst h
              exact hload _ _ e1 hls
            | ok st1 =>
              rw [hls, exceptBindOk] at h
              exact ih _ e h

theorem loadSlice_shape (lib : List (String × Pkg))
    (ix : List ((Role × Arch × Nat) × BSlice)) :
    ∀ fuel slice st e, loadSlice lib ix fuel slice st = .error e →
      cycleShape e := by
  intro fuel
  induction fuel with
  | zero =>
    intro slice st e h
    injection h with h
    subst h
    intro m hm
    exact BErr.noConfusion hm
  | succ fuel ih =>
    intro slice st e h
    unfold loadSlice at h
    by_cases hd : st.done.contains (skey slice) = true
    · rw [if_pos hd] at h
      exact Except.noConfusion h
    · rw [if_neg hd] at h
      cases hlu : loadUsesF lib ix (loadSlice lib ix fuel) slice
          (slice.pkg.usesAt slice.role slice.arch) st with
      | error e1 =>
        rw [hlu, exceptBindErr] at h
        injection h with h
        subst h
        exact loadUsesF_shape lib ix (loadSlice lib ix fuel)
          (fun s s2 e2 he => ih s s2 e2 he) slice _ st e1 hlu
      | ok st1 =>
        rw [hlu, exceptBindOk] at h
        exact Except.noConfusion h

theorem loadLoop_shape (lib : List (String × Pkg))
    (ix : List ((Role × Arch × Nat) × BSlice)) :
    ∀ fuel st e, loadLoop lib ix fuel st = .error e → cycleShape e := by
  intro fuel
  induction fuel with
  | zero =>
    intro st e h
    injection h with h
    subst h
    intro m hm
    exact BErr.noConfusion hm
  | succ fuel ih =>
    intro st e h
    unfold loadLoop at h
    cases hr : st.remaining with
    | nil =>
      simp only [hr] at h
      exact Except.noConfusion h
    | cons first rest =>
      simp only [hr] at h
      cases hls : loadSlice lib ix fuel first st with
      | error e1 =>
        rw [hls, exceptBindErr] at h
        injection h with h
        subst h
        exact loadSlice_shape lib ix fuel first st e1 hls
      | ok st1 =>
        rw [hls, exceptBindOk] at h
        exact ih st1 e h

theorem determineLoadOrder_shape (lib : List (String × Pkg))
    (contents : Contents) (fuel : Nat) (e : BErr)
    (h : determineLoadOrder lib contents fuel = .error e) : cycleShape e := by
  unfold determineLoadOrder at h
  cases hp1 : addRoots lib fuel contents with
  | error e1 =>
    rw [hp1, exceptBindErr] at h
    injection h with h
    subst h
    exact addRoots_shape lib fuel contents e1 hp1
  | ok p1 =>
    rw [hp1, exceptBindOk] at h
    exact loadLoop_shape lib p1.index fuel ⟨[], [], [], p1.order⟩ e h

/-- C5 (amended): a cycle among ordered edges makes `determineLoadOrder`
print `fatal: circular dependency between packages X and Y` (naming both
endpoint packages) and call `process.exit(1)`; because `process.exit`
bypasses the try/catch of `exports.bundle`, the bundle call terminates the
process instead of returning the failure in the `errors` list.  Every
process-exit failure of `determineLoadOrder` carries a message of that
shape, it surfaces from `bundle` as a process exit (never as a `failed`
outcome), and the concrete A↔B ordered cycle produces exactly the message
naming both packages. -/
theorem c5_ordered_cycle_exits_process (lib : List (String × Pkg))
    (contents : Contents) (fuel : Nat) (opts : BundleOptions)
    (rest : LoadSt → FS → FS × Except BErr BundleFiles)
    (sha1 : String → String) (outputPath : String) (fs : FS) (m : String)
    (hopts : opts.nodeModulesMode.isSome = true ∧ opts.hasLibrary = true ∧
      opts.releaseStamp.isSome = true)
    (h : determineLoadOrder lib contents fuel = .error (.exited m)) :
    (∃ x y, m = "fatal: circular dependency between packages " ++ x ++
      " and " ++ y) ∧
    bundleModel (some opts) lib contents fuel rest sha1 outputPath fs =
      .exitedProcess m fs ∧
    isFailedOutcome (bundleModel (some opts) lib contents fuel rest sha1
      outputPath fs) = false ∧
    determineLoadOrder c5Lib c5Contents 10 =
      .error (.exited ("fatal: circular dependency between packages " ++
        "a" ++ " and " ++ "b")) := by
  obtain ⟨h1, h2, h3⟩ := hopts
  have htb : tryBody lib contents fuel rest sha1 outputPath fs =
      (fs, Except.error (BErr.exited m)) := by
    unfold tryBody
    simp only [h]
  have hbm : bundleModel (some opts) lib contents fuel rest sha1 outputPath
      fs = .exitedProcess m fs := by
    obtain ⟨nm, hlb, rs⟩ := opts
    cases nm with
    | none => exact Bool.noConfusion h1
    | some v =>
      cases rs with
      | none => exact Bool.noConfusion h3
      | some w =>
        cases hlb with
        | false => exact Bool.noConfusion h2
        | true =>
          unfold bundleModel
          simp only [htb]
          rfl
  refine ⟨determineLoadOrder_shape lib contents fuel (.exited m) h m rfl,
    hbm, ?_, by rfl⟩
  rw [hbm]
  rfl

theorem c5_ordered_cycle_exits_process_witness :
    (∃ x y, "fatal: circular dependency between packages a and b" =
      "fatal: circular dependency between packages " ++ x ++ " and " ++ y) ∧
    bundleModel (some c5Opts) c5Lib c5Contents 10 c5Rest c5Sha "out" [] =
      .exitedProcess "fatal: circular dependency between packages a and b"
        [] ∧
    isFailedOutcome (bundleModel (some c5Opts) c5Lib c5Contents 10 c5Rest
      c5Sha "out" []) = false ∧
    determineLoadOrder c5Lib c5Contents 10 =
      .error (.exited ("fatal: circular dependency between packages " ++
        "a" ++ " and " ++ "b")) :=
  c5_ordered_cycle_exits_process c5Lib c5Contents 10 c5Opts c5Rest c5Sha
    "out" [] "fatal: circular dependency between packages a and b"
    ⟨rfl, rfl, rfl⟩ (by rfl)

/-- Counterexample to C5 as stated: on the concrete A↔B ordered cycle the
bundle call does not return an errors list at all — the outcome is a
process exit, not a `failed` outcome, so the failure is never "surfaced as
an error in the bundle operation's returned errors list". -/
theorem c5_cycle_not_in_errors_counterexample :
    isFailedOutcome (bundleModel (some c5Opts) c5Lib c5Contents 10 c5Rest
      c5Sha "out" []) = false ∧
    bundleModel (some c5Opts) c5Lib c5Contents 10 c5Rest c5Sha "out" [] =
      .exitedProcess "fatal: circular dependency between packages a and b"
        [] := ⟨rfl, rfl⟩

theorem fsRemove_not_contains (fs : FS) (p : String) :
    (fsRemove fs p).contains p = false := by
  by_contra hb
  have hc : (fsRemove fs p).contains p = true := by
    cases hx : (fsRemove fs p).contains p with
    | false => exact absurd hx hb
    | true => rfl
  have hm : p ∈ fsRemove fs p := List.mem_of_elem_eq_true hc
  have h2 := (List.mem_filter.mp hm).2
  simp at h2

/-- C4 (amended): when the try block of `exports.bundle` throws, the catch
removes the output path — so no partial bundle is observable there — and
returns `errors` containing `Exception while bundling application:` plus
the message; but the temporary build directory `.build.<basename>` is NOT
removed by the catch: in the concrete failing run the final filesystem is
exactly `[.build.out]`, the leaked build directory. -/
theorem c4_error_removes_output_but_leaks_build_dir
    (lib : List (String × Pkg)) (contents : Contents) (fuel : Nat)
    (opts : BundleOptions)
    (rest : LoadSt → FS → FS × Except BErr BundleFiles)
    (sha1 : String → String) (outputPath : String) (fs fs2 : FS) (m : String)
    (hopts : opts.nodeModulesMode.isSome = true ∧ opts.hasLibrary = true ∧
      opts.releaseStamp.isSome = true)
    (htb : tryBody lib contents fuel rest sha1 outputPath fs =
      (fs2, .error (.thrown m))) :
    bundleModel (some opts) lib contents fuel rest sha1 outputPath fs =
      .failed ["Exception while bundling application:\n" ++ m]
        (fsRemove fs2 outputPath) ∧
    (fsRemove fs2 outputPath).contains outputPath = false ∧
    bundleModel (some c4Opts) [] ([] : Contents) 10 c4Rest c4Sha "out" [] =
      .failed ["Exception while bundling application:\n" ++
        "unable to find file: /x.js"] [buildPathOf "out"] := by
  obtain ⟨h1, h2, h3⟩ := hopts
  refine ⟨?_, fsRemove_not_contains fs2 outputPath, by rfl⟩
  obtain ⟨nm, hlb, rs⟩ := opts
  cases nm with
  | none => exact Bool.noConfusion h1
  | some v =>
    cases rs with
    | none => exact Bool.noConfusion h3
    | some w =>
      cases hlb with
      | false => exact Bool.noConfusion h2
      | true =>
        unfold bundleModel
        simp only [htb]
        rfl

theorem c4_error_removes_output_but_leaks_build_dir_witness :
    bundleModel (some c4Opts) [] ([] : Contents) 10 c4Rest c4Sha "out" [] =
      .failed ["Exception while bundling application:\n" ++
        "unable to find file: /x.js"] (fsRemove [".build.out"] "out") ∧
    (fsRemove [".build.out"] "out").contains "out" = false ∧
    bundleModel (some c4Opts) [] ([] : Contents) 10 c4Rest c4Sha "out" [] =
      .failed ["Exception while bundling application:\n" ++
        "unable to find file: /x.js"] [buildPathOf "out"] :=
  c4_error_removes_output_but_leaks_build_dir [] [] 10 c4Opts c4Rest c4Sha
    "out" [] [".build.out"] "unable to find file: /x.js" ⟨rfl, rfl, rfl⟩
    (by rfl)

/-- Counterexample to C4 as stated: in the concrete failing bundle run the
temporary build directory `.build.out` IS left behind (it is the one entry
of the final filesystem), while the outcome is the `errors` return. -/
theorem c4_build_dir_left_behind_counterexample :
    bundleModel (some c4Opts) [] ([] : Contents) 10 c4Rest c4Sha "out" [] =
      .failed ["Exception while bundling application:\nunable to find file: /x.js"]
        [".build.out"] ∧
    ([".build.out"] : FS).contains (buildPathOf "out") = true := ⟨rfl, rfl⟩

/-- C7: slice compilation does record `sha1(bytes)` for every file it reads
into the slice's own `dependencyInfo.files` (the concrete run maps
`/pk/a.js` to the hash of its contents), but the bundle-side merge of
`writeToDirectory` reads `slice.pkg.dependencyFileShas` — a property no
code ever assigns — so the merge is the identity on the bundle's
`dependencyInfo.files` and the hash of the compiled source file never
appears there: the claimed invariant fails for every file read during
compilation. -/
theorem c7_dependency_shas_never_reach_bundle :
    (∀ (files : List (String × String)) (pkgs : List PackageP),
      mergeDependencyFiles files pkgs = files) ∧
    (ensureCompiled c7Env [] c7Slice).map
      (fun s2 => lookupKey s2.depFiles "/pk/a.js") =
      .ok (some ("#" ++ "alert(1)")) ∧
    (∀ pkgs : List PackageP,
      lookupKey (mergeDependencyFiles [] pkgs) "/pk/a.js" = none) := by
  have hm : ∀ (pkgs : List PackageP) (files : List (String × String)),
      mergeDependencyFiles files pkgs = files := by
    intro pkgs
    induction pkgs with
    | nil =>
      intro files
      rfl
    | cons p rest ih =>
      intro files
      show mergeDependencyFiles files (p :: rest) = files
      unfold mergeDependencyFiles
      rw [List.foldl_cons]
      exact ih files
  refine ⟨fun files pkgs => hm pkgs files, by rfl, ?_⟩
  intro pkgs
  rw [hm pkgs []]
  rfl

/-- C9: `scanForSources` returns the non-ignored enumerated files, sorted,
as root-relative paths in which the html files form a stable partition
ahead of all non-html files (the general equation rewrites the mutating
html-first loop as two stable filters); concretely the enumeration
`[z.js, a.html, m.js, b.html]` scans to `[a.html, b.html, z.js, m.js]`, and
the slice with sources `[z.js, a.html, m.js, b.html]` emits its resources
derived from `a.html, b.html, z.js, m.js` in exactly that order. -/
theorem c9_scan_html_first_and_emission_order :
    (∀ (env : ScanEnv) (rootPath : String) (extensions : List String)
        (ignoreFiles : List (String → Bool)),
      scanForSources env rootPath extensions ignoreFiles =
        relativizeAll
          (if jsFinishesWith rootPath "/" then rootPath else rootPath ++ "/")
          ((env.sortFiles ((env.fileListSync rootPath extensions).filter
              (fun file => !(ignoreFiles.any (fun pat => pat file))))).filter
                (fun f => extnameOf f == ".html") ++
            (env.sortFiles ((env.fileListSync rootPath extensions).filter
              (fun file => !(ignoreFiles.any (fun pat => pat file))))).filter
                (fun f => !(extnameOf f == ".html")))) ∧
    scanForSources c9ScanEnv "/r" ["html", "js"] [] =
      .ok ["a.html", "b.html", "z.js", "m.js"] ∧
    getResources c9Env [] c9Resolve c9Slice = .ok
      [⟨"head", "H:/app/a.html", some "/a.html"⟩,
       ⟨"head", "H:/app/b.html", some "/b.html"⟩,
       ⟨"js", "J:/app/z.js", some "/z.js"⟩,
       ⟨"js", "J:/app/m.js", some "/m.js"⟩] := by
  refine ⟨?_, by rfl, by rfl⟩
  intro env rootPath extensions ignoreFiles
  unfold scanForSources
  dsimp only
  rw [htmlHack_eq_stable_partition]
